import Mathlib

/-!
Shallow embedding of the change-propagation and serialization core of
`src/storage/hooks/useStorage.ts` (the `useStorage` hook, its cookie helpers
`getCookie` / `setCookie` / `removeCookie`, and the `StoragePollingManager`
singleton), together with executable models of the host primitives the hook
calls (`JSON.stringify` / `JSON.parse`, `encodeURIComponent` /
`decodeURIComponent`, `Date.prototype.toUTCString`, the browser cookie jar and
the Web Storage maps).

Modelling conventions:
* JavaScript strings are modelled as Lean `String`s (sequences of Unicode
  scalar values); lone UTF-16 surrogates are not representable and the JSON
  string parser rejects `\uXXXX` escapes denoting them.
* JavaScript numbers are modelled as `Int` (the exactly-representable integer
  fragment); `JSON.parse` is modelled on the integer numeral grammar.
* The absent raw value (`null` from `getItem` / `getCookie`) is `Option.none`;
  the JavaScript `null` *value* (typed level) is the explicit `JVal.null`.
-/

namespace Spec2Proof

mutual

/-- Typed storage values: the JavaScript values the hook stores and returns
(string, number, boolean, null, array, object).  `JArr` and `JObj` are the
mutually defined array/object spines. -/
inductive JVal : Type where
  | str : String → JVal
  | num : Int → JVal
  | jbool : Bool → JVal
  | null : JVal
  | arr : JArr → JVal
  | obj : JObj → JVal
deriving DecidableEq

inductive JArr : Type where
  | nil : JArr
  | cons : JVal → JArr → JArr
deriving DecidableEq

inductive JObj : Type where
  | nil : JObj
  | cons : String → JVal → JObj → JObj
deriving DecidableEq

end

/-- Decimal digit character, `0 ≤ d ≤ 9`. -/
def digitChar (d : Nat) : Char := Char.ofNat (48 + d)

/-- Fueled digit emitter for `natChars` (fuel `n + 1` always suffices). -/
def natCharsAux : Nat → Nat → List Char
  | 0, _ => []
  | fuel + 1, n =>
    if n < 10 then [digitChar n]
    else natCharsAux fuel (n / 10) ++ [digitChar (n % 10)]

/-- Decimal numeral of a natural number, most significant digit first,
without leading zeros (`0` renders as `"0"`).  Models JavaScript's
`String(n)` / `JSON.stringify(n)` on non-negative integers. -/
def natChars (n : Nat) : List Char := natCharsAux (n + 1) n

/-- `natCharsAux` ignores the fuel once it exceeds the argument. -/
theorem natCharsAux_fuel : ∀ (f₁ : Nat), ∀ (n : Nat) (f₂ : Nat), n < f₁ → n < f₂ →
    natCharsAux f₁ n = natCharsAux f₂ n := by
  intro f₁
  induction f₁ with
  | zero => omega
  | succ f ihf =>
    intro n f₂ h₁ h₂
    cases f₂ with
    | zero => omega
    | succ g =>
      by_cases hn : n < 10
      · simp [natCharsAux, hn]
      · have hd : n / 10 < n := Nat.div_lt_self (by omega) (by decide)
        simp only [natCharsAux, if_neg hn]
        rw [ihf (n / 10) g (by omega) (by omega)]

/-- Unfolding equation for `natChars` in the recursive case. -/
theorem natChars_eq (n : Nat) :
    natChars n = if n < 10 then [digitChar n]
      else natChars (n / 10) ++ [digitChar (n % 10)] := by
  by_cases hn : n < 10
  · simp [natChars, natCharsAux, hn]
  · rw [if_neg hn]
    show natCharsAux (n + 1) n = natCharsAux (n / 10 + 1) (n / 10) ++ [digitChar (n % 10)]
    have h1 : natCharsAux (n + 1) n = natCharsAux n (n / 10) ++ [digitChar (n % 10)] := by
      conv_lhs => rw [natCharsAux]
      rw [if_neg hn]
    rw [h1, natCharsAux_fuel n (n / 10) (n / 10 + 1) (by omega) (by omega)]

/-- Decimal numeral of an integer (JavaScript `String(n)`). -/
def intChars (n : Int) : List Char :=
  if n < 0 then '-' :: natChars (-n).toNat else natChars n.toNat

/-- Lower-case hexadecimal digit character, `0 ≤ d ≤ 15` (as used by
`JSON.stringify`'s `\u00XX` escapes). -/
def hexCharLower (d : Nat) : Char :=
  if d < 10 then Char.ofNat (48 + d) else Char.ofNat (87 + d)

/-- `JSON.stringify`'s escaping of one character inside a string literal:
quote and backslash get two-character escapes, the named control characters
get `\b \t \n \f \r`, all other C0 control characters get `\u00XX`, and every
other character is emitted verbatim. -/
def escChar (c : Char) : List Char :=
  if c = '"' then ['\\', '"']
  else if c = '\\' then ['\\', '\\']
  else if c = Char.ofNat 8 then ['\\', 'b']
  else if c = Char.ofNat 9 then ['\\', 't']
  else if c = Char.ofNat 10 then ['\\', 'n']
  else if c = Char.ofNat 12 then ['\\', 'f']
  else if c = Char.ofNat 13 then ['\\', 'r']
  else if c.toNat < 32 then
    ['\\', 'u', '0', '0', hexCharLower (c.toNat / 16), hexCharLower (c.toNat % 16)]
  else [c]

/-- `JSON.stringify` of a string value: quoted, characters escaped. -/
def strChars (s : String) : List Char :=
  '"' :: s.data.flatMap escChar ++ ['"']

mutual

/-- `JSON.stringify` of a value (no whitespace, insertion-order object keys),
as a character list. -/
def sVal : JVal → List Char
  | .str s => strChars s
  | .num n => intChars n
  | .jbool b => if b then ['t', 'r', 'u', 'e'] else ['f', 'a', 'l', 's', 'e']
  | .null => ['n', 'u', 'l', 'l']
  | .arr l => '[' :: sElems l ++ [']']
  | .obj l => Char.ofNat 123 :: sMembers l ++ [Char.ofNat 125]

/-- Comma-separated array elements. -/
def sElems : JArr → List Char
  | .nil => []
  | .cons v .nil => sVal v
  | .cons v rest => sVal v ++ ',' :: sElems rest

/-- Comma-separated `"key":value` object members. -/
def sMembers : JObj → List Char
  | .nil => []
  | .cons k v .nil => strChars k ++ ':' :: sVal v
  | .cons k v rest => strChars k ++ ':' :: sVal v ++ ',' :: sMembers rest

end

/-- `JSON.stringify` as a `String → String` model. -/
def jsonStringify (v : JVal) : String := ⟨sVal v⟩

/-! ### The `JSON.parse` model: fueled recursive-descent parser. -/

/-- JSON insignificant whitespace (space, tab, line feed, carriage return). -/
def isWsChar (c : Char) : Bool :=
  c = ' ' || c = Char.ofNat 9 || c = Char.ofNat 10 || c = Char.ofNat 13

/-- Skip leading JSON whitespace. -/
def skipWs : List Char → List Char
  | [] => []
  | c :: cs => if isWsChar c then skipWs cs else c :: cs

/-- ASCII decimal digit test. -/
def isDigitChar (c : Char) : Bool := 48 ≤ c.toNat && c.toNat ≤ 57

/-- Value of a hexadecimal digit character (either case), if it is one. -/
def hexVal (c : Char) : Option Nat :=
  if 48 ≤ c.toNat && c.toNat ≤ 57 then some (c.toNat - 48)
  else if 97 ≤ c.toNat && c.toNat ≤ 102 then some (c.toNat - 87)
  else if 65 ≤ c.toNat && c.toNat ≤ 70 then some (c.toNat - 55)
  else none

/-- Value of a four-hex-digit escape `XXXX`. -/
def hex4 (a b c d : Char) : Option Nat := do
  let va ← hexVal a
  let vb ← hexVal b
  let vc ← hexVal c
  let vd ← hexVal d
  pure (va * 4096 + vb * 256 + vc * 16 + vd)

/-- Prepend a decoded character to a string-parser result. -/
def consOut (c : Char) : Option (List Char × List Char) → Option (List Char × List Char)
  | some (l, rest) => some (c :: l, rest)
  | none => none

/-- Decode a single-character JSON escape (`\" \\ \/ \b \f \n \r \t`). -/
def escDecode1 (e : Char) : Option Char :=
  if e = '"' then some '"'
  else if e = '\\' then some '\\'
  else if e = '/' then some '/'
  else if e = 'b' then some (Char.ofNat 8)
  else if e = 'f' then some (Char.ofNat 12)
  else if e = 'n' then some (Char.ofNat 10)
  else if e = 'r' then some (Char.ofNat 13)
  else if e = 't' then some (Char.ofNat 9)
  else none

mutual

/-- Parse the body of a JSON string literal (after the opening quote), up to
and including the closing quote; returns the decoded characters and the
remaining input.  Fuel decreases on every step; `length + 1` suffices.
`\uXXXX` escapes that denote lone UTF-16 surrogates are rejected (such
strings are not representable as Lean `String`s). -/
def pStr : Nat → List Char → Option (List Char × List Char)
  | 0, _ => none
  | _ + 1, [] => none
  | fuel + 1, c :: cs =>
    if c = '"' then some ([], cs)
    else if c = '\\' then pStrEsc fuel cs
    else if c.toNat < 32 then none
    else consOut c (pStr fuel cs)

/-- Parse what follows a backslash inside a string literal. -/
def pStrEsc : Nat → List Char → Option (List Char × List Char)
  | 0, _ => none
  | _ + 1, [] => none
  | fuel + 1, e :: cs =>
    if e = 'u' then
      match cs with
      | h1 :: h2 :: h3 :: h4 :: cs' =>
        match hex4 h1 h2 h3 h4 with
        | none => none
        | some n =>
          if 55296 ≤ n && n ≤ 56319 then pStrSurr fuel n cs'
          else if 56320 ≤ n && n ≤ 57343 then none
          else consOut (Char.ofNat n) (pStr fuel cs')
      | _ => none
    else
      match escDecode1 e with
      | some d => consOut d (pStr fuel cs)
      | none => none

/-- After a high-surrogate `\uXXXX` escape: require the paired low-surrogate
escape and combine into one code point. -/
def pStrSurr : Nat → Nat → List Char → Option (List Char × List Char)
  | 0, _, _ => none
  | fuel + 1, n, cs =>
    match cs with
    | b :: u :: g1 :: g2 :: g3 :: g4 :: cs' =>
      if b = '\\' && u = 'u' then
        match hex4 g1 g2 g3 g4 with
        | none => none
        | some m =>
          if 56320 ≤ m && m ≤ 57343 then
            consOut (Char.ofNat (65536 + (n - 55296) * 1024 + (m - 56320))) (pStr fuel cs')
          else none
      else none
    | _ => none

end

/-- Digit-accumulation loop of the number parser. -/
def pDigitsLoop (acc : Nat) : List Char → Nat × List Char
  | [] => (acc, [])
  | c :: cs =>
    if isDigitChar c then pDigitsLoop (acc * 10 + (c.toNat - 48)) cs
    else (acc, c :: cs)

/-- Parse a JSON natural-number numeral (no leading zeros; a leading `0`
must not be followed by another digit). -/
def pNat : List Char → Option (Nat × List Char)
  | [] => none
  | c :: cs =>
    if c = '0' then
      match cs with
      | d :: _ => if isDigitChar d then none else some (0, cs)
      | [] => some (0, [])
    else if isDigitChar c then some (pDigitsLoop (c.toNat - 48) cs)
    else none

/-- Wrap a parsed string body as a `JVal.str` result. -/
def strOut : Option (List Char × List Char) → Option (JVal × List Char)
  | some (l, rest) => some (.str ⟨l⟩, rest)
  | none => none

/-- Wrap a parsed numeral as a (possibly negated) `JVal.num` result. -/
def numOut (neg : Bool) : Option (Nat × List Char) → Option (JVal × List Char)
  | some (m, rest) => some (.num (cond neg (-(m : Int)) (m : Int)), rest)
  | none => none

/-- Wrap a parsed element-list tail as a `JVal.arr` result. -/
def arrOut : Option (JArr × List Char) → Option (JVal × List Char)
  | some (l, rest) => some (.arr l, rest)
  | none => none

/-- Wrap a parsed member-list tail as a `JVal.obj` result. -/
def objOut : Option (JObj × List Char) → Option (JVal × List Char)
  | some (l, rest) => some (.obj l, rest)
  | none => none

/-- Prepend a parsed array element. -/
def consElem (v : JVal) : Option (JArr × List Char) → Option (JArr × List Char)
  | some (l, rest) => some (.cons v l, rest)
  | none => none

/-- Prepend a parsed object member. -/
def consMember (k : String) (v : JVal) : Option (JObj × List Char) → Option (JObj × List Char)
  | some (l, rest) => some (.cons k v l, rest)
  | none => none

mutual

/-- Fueled parser for one JSON value (leading whitespace allowed); returns
the value and the unconsumed input. -/
def pVal : Nat → List Char → Option (JVal × List Char)
  | 0, _ => none
  | fuel + 1, cs =>
    match skipWs cs with
    | [] => none
    | c :: cs' =>
      if c = '"' then strOut (pStr fuel cs')
      else if c = 't' then
        match cs' with
        | c1 :: c2 :: c3 :: rest =>
          if c1 = 'r' && c2 = 'u' && c3 = 'e' then some (.jbool true, rest) else none
        | _ => none
      else if c = 'f' then
        match cs' with
        | c1 :: c2 :: c3 :: c4 :: rest =>
          if c1 = 'a' && c2 = 'l' && c3 = 's' && c4 = 'e' then some (.jbool false, rest)
          else none
        | _ => none
      else if c = 'n' then
        match cs' with
        | c1 :: c2 :: c3 :: rest =>
          if c1 = 'u' && c2 = 'l' && c3 = 'l' then some (.null, rest) else none
        | _ => none
      else if c = '-' then numOut true (pNat cs')
      else if isDigitChar c then numOut false (pNat (c :: cs'))
      else if c = '[' then
        match skipWs cs' with
        | [] => none
        | d :: rest =>
          if d = ']' then some (.arr .nil, rest)
          else arrOut (pElemsA fuel (d :: rest))
      else if c = Char.ofNat 123 then
        match skipWs cs' with
        | [] => none
        | d :: rest =>
          if d = Char.ofNat 125 then some (.obj .nil, rest)
          else objOut (pMembersO fuel (d :: rest))
      else none

/-- Fueled parser for one-or-more comma-separated array elements followed by
the closing bracket. -/
def pElemsA : Nat → List Char → Option (JArr × List Char)
  | 0, _ => none
  | fuel + 1, cs =>
    match pVal fuel cs with
    | none => none
    | some (v, rest) =>
      match skipWs rest with
      | [] => none
      | sep :: rest' =>
        if sep = ',' then consElem v (pElemsA fuel rest')
        else if sep = ']' then some (.cons v .nil, rest')
        else none

/-- Fueled parser for one-or-more comma-separated `"key":value` object
members followed by the closing brace. -/
def pMembersO : Nat → List Char → Option (JObj × List Char)
  | 0, _ => none
  | fuel + 1, cs =>
    match skipWs cs with
    | [] => none
    | c :: cs' =>
      if c = '"' then
        match pStr fuel cs' with
        | none => none
        | some (k, rest) =>
          match skipWs rest with
          | [] => none
          | sep :: rest' =>
            if sep = ':' then
              match pVal fuel rest' with
              | none => none
              | some (v, rest'') =>
                match skipWs rest'' with
                | [] => none
                | d :: r3 =>
                  if d = ',' then consMember ⟨k⟩ v (pMembersO fuel r3)
                  else if d = Char.ofNat 125 then some (.cons ⟨k⟩ v .nil, r3)
                  else none
            else none
      else none

end

/-- `JSON.parse` model: parse one value, allow trailing whitespace, reject
anything left over (`none` models a thrown `SyntaxError`). -/
def jsonParse (s : String) : Option JVal :=
  match pVal (2 * s.data.length + 2) s.data with
  | some (v, rest) => if skipWs rest = [] then some v else none
  | none => none

/-! ### The hook's Value Codec (`setValue` serialization / read-back decoding)

`setValue` (useStorage.ts line 176): strings are stored as-is, every other
value is `JSON.stringify`-ed.  Read-back (lines 124-131 and 293-302): try
`JSON.parse` first, fall back to the raw text as a plain string. -/

/-- Serialization performed by `setValue`:
`typeof newValue === 'string' ? newValue : JSON.stringify(newValue)`. -/
def encode : JVal → String
  | .str s => s
  | v => jsonStringify v

/-- Decoding performed when a raw value is read back:
`try { JSON.parse(raw) } catch { raw as string }`. -/
def decode (raw : String) : JVal :=
  match jsonParse raw with
  | some v => v
  | none => .str raw

/-! ### Round-trip: `jsonParse (jsonStringify v) = some v` -/

/-- The input does not start with a digit (so a numeral parse stops here). -/
def numDelim : List Char → Bool
  | [] => true
  | c :: _ => !(isDigitChar c)

theorem skipWs_not_ws {c : Char} (h : isWsChar c = false) (l : List Char) :
    skipWs (c :: l) = c :: l := by
  simp [skipWs, h]

theorem numDelim_cons {c : Char} (h : isDigitChar c = false) (r : List Char) :
    numDelim (c :: r) = true := by
  simp [numDelim, h]

theorem digitChar_toNat {d : Nat} (h : d < 10) : (digitChar d).toNat = 48 + d := by
  have hb : ∀ e, e < 10 → (digitChar e).toNat = 48 + e := by decide
  exact hb d h

theorem isDigitChar_digitChar {d : Nat} (h : d < 10) : isDigitChar (digitChar d) = true := by
  have hb : ∀ e, e < 10 → isDigitChar (digitChar e) = true := by decide
  exact hb d h

theorem isDigitChar_toNat {c : Char} (h : isDigitChar c = true) :
    48 ≤ c.toNat ∧ c.toNat ≤ 57 := by
  simpa [isDigitChar, Bool.and_eq_true, decide_eq_true_eq] using h

theorem pDigitsLoop_stop {acc : Nat} {rest : List Char} (h : numDelim rest = true) :
    pDigitsLoop acc rest = (acc, rest) := by
  cases rest with
  | nil => simp [pDigitsLoop]
  | cons c cs =>
    have hc : isDigitChar c = false := by
      simpa [numDelim] using h
    simp [pDigitsLoop, hc]

theorem pDigitsLoop_natChars (m : Nat) : ∀ (acc : Nat) (rest : List Char),
    pDigitsLoop acc (natChars m ++ rest) =
      pDigitsLoop (acc * 10 ^ (natChars m).length + m) rest := by
  induction m using Nat.strong_induction_on with
  | _ m ih =>
    intro acc rest
    by_cases h : m < 10
    · rw [natChars_eq, if_pos h]
      have hd : isDigitChar (digitChar m) = true := isDigitChar_digitChar h
      have ht : (digitChar m).toNat = 48 + m := digitChar_toNat h
      simp [pDigitsLoop, hd, ht]
    · rw [natChars_eq, if_neg h, List.append_assoc, List.singleton_append]
      have hlt : m / 10 < m := Nat.div_lt_self (by omega) (by decide)
      rw [ih (m / 10) hlt acc (digitChar (m % 10) :: rest)]
      have h10 : m % 10 < 10 := Nat.mod_lt _ (by decide)
      have hd : isDigitChar (digitChar (m % 10)) = true := isDigitChar_digitChar h10
      have ht : (digitChar (m % 10)).toNat = 48 + m % 10 := digitChar_toNat h10
      rw [show pDigitsLoop (acc * 10 ^ (natChars (m / 10)).length + m / 10)
            (digitChar (m % 10) :: rest) =
          pDigitsLoop ((acc * 10 ^ (natChars (m / 10)).length + m / 10) * 10 + m % 10) rest by
        simp [pDigitsLoop, hd, ht]]
      simp only [List.length_append, List.length_singleton]
      congr 1
      have hdm : m / 10 * 10 + m % 10 = m := by omega
      calc (acc * 10 ^ (natChars (m / 10)).length + m / 10) * 10 + m % 10
          = acc * (10 ^ (natChars (m / 10)).length * 10) + (m / 10 * 10 + m % 10) := by ring
        _ = acc * 10 ^ ((natChars (m / 10)).length + 1) + m := by rw [hdm, pow_succ]

theorem natChars_zero : natChars 0 = ['0'] := by decide

theorem natChars_pos_head (m : Nat) (hm : 0 < m) :
    ∃ c cs, natChars m = c :: cs ∧ isDigitChar c = true ∧ c ≠ '0' := by
  induction m using Nat.strong_induction_on with
  | _ m ih =>
    by_cases h : m < 10
    · refine ⟨digitChar m, [], ?_, isDigitChar_digitChar h, ?_⟩
      · rw [natChars_eq, if_pos h]
      · have hb : ∀ e, e < 10 → 0 < e → digitChar e ≠ '0' := by decide
        exact hb m h hm
    · have hlt : m / 10 < m := Nat.div_lt_self (by omega) (by decide)
      have hpos : 0 < m / 10 := by omega
      obtain ⟨c, cs, heq, hdig, hne⟩ := ih (m / 10) hlt hpos
      exact ⟨c, cs ++ [digitChar (m % 10)], by rw [natChars_eq, if_neg h, heq]; simp,
        hdig, hne⟩

theorem hexVal_hexCharLower {d : Nat} (h : d < 16) : hexVal (hexCharLower d) = some d := by
  have hb : ∀ e, e < 16 → hexVal (hexCharLower e) = some e := by decide
  exact hb d h

/-- Parsing back an escaped string body up to its closing quote. -/
theorem pStr_escape : ∀ (l : List Char) (fuel : Nat) (rest : List Char),
    2 * l.length + 1 ≤ fuel →
    pStr fuel (l.flatMap escChar ++ '"' :: rest) = some (l, rest) := by
  intro l
  induction l with
  | nil =>
    intro fuel rest hf
    obtain ⟨f, rfl⟩ : ∃ f, fuel = f + 1 := ⟨fuel - 1, by omega⟩
    simp [pStr]
  | cons c l' ih =>
    intro fuel rest hf
    simp only [List.flatMap_cons, List.append_assoc, List.length_cons] at hf ⊢
    obtain ⟨g, rfl⟩ : ∃ g, fuel = g + 1 + 1 := ⟨fuel - 2, by omega⟩
    have hih : 2 * l'.length + 1 ≤ g := by omega
    have hih1 : 2 * l'.length + 1 ≤ g + 1 := by omega
    by_cases h1 : c = '"'
    · subst h1
      rw [show escChar '"' = ['\\', '"'] from by decide]
      simp only [List.cons_append, List.nil_append]
      simp only [pStr, pStrEsc, escDecode1]
      norm_num
      rw [ih g rest hih]
      simp [consOut]
    by_cases h2 : c = '\\'
    · subst h2
      rw [show escChar '\\' = ['\\', '\\'] from by decide]
      simp only [List.cons_append, List.nil_append]
      simp only [pStr, pStrEsc, escDecode1]
      norm_num
      rw [ih g rest hih]
      simp [consOut]
    by_cases h3 : c = Char.ofNat 8
    · subst h3
      rw [show escChar (Char.ofNat 8) = ['\\', 'b'] from by decide]
      simp only [List.cons_append, List.nil_append]
      simp only [pStr, pStrEsc, escDecode1]
      norm_num
      rw [ih g rest hih]
      simp [consOut]
    by_cases h4 : c = Char.ofNat 9
    · subst h4
      rw [show escChar (Char.ofNat 9) = ['\\', 't'] from by decide]
      simp only [List.cons_append, List.nil_append]
      simp only [pStr, pStrEsc, escDecode1]
      norm_num
      rw [ih g rest hih]
      simp [consOut]
    by_cases h5 : c = Char.ofNat 10
    · subst h5
      rw [show escChar (Char.ofNat 10) = ['\\', 'n'] from by decide]
      simp only [List.cons_append, List.nil_append]
      simp only [pStr, pStrEsc, escDecode1]
      norm_num
      rw [ih g rest hih]
      simp [consOut]
    by_cases h6 : c = Char.ofNat 12
    · subst h6
      rw [show escChar (Char.ofNat 12) = ['\\', 'f'] from by decide]
      simp only [List.cons_append, List.nil_append]
      simp only [pStr, pStrEsc, escDecode1]
      norm_num
      rw [ih g rest hih]
      simp [consOut]
    by_cases h7 : c = Char.ofNat 13
    · subst h7
      rw [show escChar (Char.ofNat 13) = ['\\', 'r'] from by decide]
      simp only [List.cons_append, List.nil_append]
      simp only [pStr, pStrEsc, escDecode1]
      norm_num
      rw [ih g rest hih]
      simp [consOut]
    by_cases h8 : c.toNat < 32
    · -- the `\u00XX` escape
      rw [show escChar c =
          ['\\', 'u', '0', '0', hexCharLower (c.toNat / 16), hexCharLower (c.toNat % 16)] from by
        simp [escChar, h1, h2, h3, h4, h5, h6, h7, h8]]
      simp only [List.cons_append, List.nil_append]
      have h4x : hex4 '0' '0' (hexCharLower (c.toNat / 16)) (hexCharLower (c.toNat % 16)) =
          some c.toNat := by
        simp only [hex4, hexVal_hexCharLower (show c.toNat / 16 < 16 by omega),
          hexVal_hexCharLower (show c.toNat % 16 < 16 by omega)]
        show some (0 * 4096 + 0 * 256 + c.toNat / 16 * 16 + c.toNat % 16) = some c.toNat
        congr 1
        omega
      have hs1 : (decide (55296 ≤ c.toNat) && decide (c.toNat ≤ 56319)) = false := by
        simp only [Bool.and_eq_false_iff, decide_eq_false_iff_not]
        left
        omega
      have hs2 : (decide (56320 ≤ c.toNat) && decide (c.toNat ≤ 57343)) = false := by
        simp only [Bool.and_eq_false_iff, decide_eq_false_iff_not]
        left
        omega
      simp only [pStr, pStrEsc, h4x, hs1, hs2]
      norm_num
      rw [ih g rest hih]
      simp [consOut]
    · -- verbatim character
      rw [show escChar c = [c] from by simp [escChar, h1, h2, h3, h4, h5, h6, h7, h8]]
      simp only [List.cons_append, List.nil_append]
      simp only [pStr, if_neg h1, if_neg h2, if_neg h8]
      rw [ih (g + 1) rest hih1]
      simp [consOut]

theorem pNat_natChars {m : Nat} {rest : List Char} (h : numDelim rest = true) :
    pNat (natChars m ++ rest) = some (m, rest) := by
  rcases Nat.eq_zero_or_pos m with hm | hm
  · subst hm
    rw [natChars_zero]
    cases rest with
    | nil => simp [pNat]
    | cons c cs =>
      have hc : isDigitChar c = false := by simpa [numDelim] using h
      simp [pNat, hc]
  · obtain ⟨c, cs, heq, hdig, hne⟩ := natChars_pos_head m hm
    have key : pDigitsLoop 0 (natChars m ++ rest) = (m, rest) := by
      rw [pDigitsLoop_natChars, Nat.zero_mul, Nat.zero_add, pDigitsLoop_stop h]
    rw [heq, List.cons_append] at key
    have kstep : pDigitsLoop 0 (c :: (cs ++ rest)) =
        pDigitsLoop (c.toNat - 48) (cs ++ rest) := by
      simp [pDigitsLoop, hdig]
    rw [kstep] at key
    rw [heq, List.cons_append]
    simp [pNat, hne, hdig, key]

theorem char_ne_of_toNat {c d : Char} (h : c.toNat ≠ d.toNat) : c ≠ d :=
  fun he => h (he ▸ rfl)

theorem digit_head_facts {c : Char} (h : isDigitChar c = true) :
    isWsChar c = false ∧ c ≠ '"' ∧ c ≠ 't' ∧ c ≠ 'f' ∧ c ≠ 'n' ∧ c ≠ '-' ∧ c ≠ ']' := by
  obtain ⟨hl, hr⟩ := isDigitChar_toNat h
  refine ⟨?_, ?_, ?_, ?_, ?_, ?_, ?_⟩
  · cases hb : isWsChar c with
    | false => rfl
    | true =>
      exfalso
      simp only [isWsChar, Bool.or_eq_true, decide_eq_true_eq] at hb
      rcases hb with ((h1 | h2) | h3) | h4 <;> subst_vars <;> simp [isDigitChar] at h
  · exact char_ne_of_toNat (by change c.toNat ≠ 34; omega)
  · exact char_ne_of_toNat (by change c.toNat ≠ 116; omega)
  · exact char_ne_of_toNat (by change c.toNat ≠ 102; omega)
  · exact char_ne_of_toNat (by change c.toNat ≠ 110; omega)
  · exact char_ne_of_toNat (by change c.toNat ≠ 45; omega)
  · exact char_ne_of_toNat (by change c.toNat ≠ 93; omega)

/-- Every serialized value starts with a non-whitespace character that is
neither `]` nor `,`. -/
theorem sVal_head (v : JVal) :
    ∃ c cs, sVal v = c :: cs ∧ isWsChar c = false ∧ c ≠ ']' ∧ c ≠ ',' := by
  cases v with
  | str s => exact ⟨'"', _, rfl, by decide, by decide, by decide⟩
  | num n =>
    by_cases hn : n < 0
    · refine ⟨'-', natChars (-n).toNat, ?_, by decide, by decide, by decide⟩
      simp [sVal, intChars, hn]
    · rcases Nat.eq_zero_or_pos n.toNat with hz | hp
      · refine ⟨'0', [], ?_, by decide, by decide, by decide⟩
        simp [sVal, intChars, hn, hz, natChars_zero]
      · obtain ⟨c, cs, heq, hdig, _⟩ := natChars_pos_head n.toNat hp
        obtain ⟨hws, _, _, _, _, _, hne1⟩ := digit_head_facts hdig
        obtain ⟨_, _⟩ := isDigitChar_toNat hdig
        refine ⟨c, cs, ?_, hws, hne1, char_ne_of_toNat (by change c.toNat ≠ 44; omega)⟩
        simp [sVal, intChars, hn, heq]
  | jbool b =>
    cases b
    · exact ⟨'f', _, rfl, by decide, by decide, by decide⟩
    · exact ⟨'t', _, rfl, by decide, by decide, by decide⟩
  | null => exact ⟨'n', _, rfl, by decide, by decide, by decide⟩
  | arr l => exact ⟨'[', _, rfl, by decide, by decide, by decide⟩
  | obj l => exact ⟨Char.ofNat 123, _, rfl, by decide, by decide, by decide⟩

theorem sElems_one (v : JVal) : sElems (.cons v .nil) = sVal v := by rw [sElems]

theorem sElems_cons (v w : JVal) (l : JArr) :
    sElems (.cons v (.cons w l)) = sVal v ++ ',' :: sElems (.cons w l) := by
  rw [sElems]
  exact fun h => JArr.noConfusion h

theorem sMembers_one (k : String) (v : JVal) :
    sMembers (.cons k v .nil) = strChars k ++ ':' :: sVal v := by rw [sMembers]

theorem sMembers_cons (k : String) (v : JVal) (k' : String) (v' : JVal) (l : JObj) :
    sMembers (.cons k v (.cons k' v' l)) =
      strChars k ++ ':' :: sVal v ++ ',' :: sMembers (.cons k' v' l) := by
  rw [sMembers]
  exact fun h => JObj.noConfusion h

mutual

/-- Fuel consumption bound for parsing back a serialized value. -/
def sizeV : JVal → Nat
  | .str s => 2 * s.data.length + 2
  | .num _ => 1
  | .jbool _ => 1
  | .null => 1
  | .arr l => 1 + sizeA l
  | .obj l => 1 + sizeO l

/-- Fuel consumption bound for a serialized element list. -/
def sizeA : JArr → Nat
  | .nil => 0
  | .cons v l => 1 + sizeV v + sizeA l

/-- Fuel consumption bound for a serialized member list. -/
def sizeO : JObj → Nat
  | .nil => 0
  | .cons k v l => 2 + 2 * k.data.length + sizeV v + sizeO l

end

theorem pVal_lbrack (f : Nat) (cs : List Char) :
    pVal (f + 1) ('[' :: cs) =
      (match skipWs cs with
       | [] => none
       | d :: r => if d = ']' then some (.arr .nil, r) else arrOut (pElemsA f (d :: r))) := by
  simp [pVal, skipWs, isWsChar, isDigitChar]

theorem pVal_lbrace (f : Nat) (cs : List Char) :
    pVal (f + 1) (Char.ofNat 123 :: cs) =
      (match skipWs cs with
       | [] => none
       | d :: r => if d = Char.ofNat 125 then some (.obj .nil, r)
         else objOut (pMembersO f (d :: r))) := by
  simp [pVal, skipWs, isWsChar, isDigitChar]

mutual

/-- Parsing inverts serialization for a single value, given any remainder
that does not begin with a digit. -/
theorem rtV (v : JVal) : ∀ (fuel : Nat) (rest : List Char), sizeV v ≤ fuel →
    numDelim rest = true → pVal fuel (sVal v ++ rest) = some (v, rest) := by
  cases v with
  | str s =>
    intro fuel rest hf _hd
    obtain ⟨sd⟩ := s
    simp only [sizeV] at hf
    obtain ⟨f, rfl⟩ : ∃ f, fuel = f + 1 := ⟨fuel - 1, by omega⟩
    have hbody : 2 * sd.length + 1 ≤ f := by
      simpa using hf
    simp only [sVal, strChars, List.cons_append, List.append_assoc, List.nil_append]
    have hstep : pVal (f + 1) ('"' :: (sd.flatMap escChar ++ '"' :: rest)) =
        strOut (pStr f (sd.flatMap escChar ++ '"' :: rest)) := by
      simp [pVal, skipWs, isWsChar, isDigitChar]
    rw [hstep, pStr_escape sd f rest hbody]
    simp [strOut]
  | num n =>
    intro fuel rest hf hd
    simp only [sizeV] at hf
    obtain ⟨f, rfl⟩ : ∃ f, fuel = f + 1 := ⟨fuel - 1, by omega⟩
    by_cases hn : n < 0
    · simp only [sVal, intChars, if_pos hn, List.cons_append]
      have hstep : pVal (f + 1) ('-' :: (natChars (-n).toNat ++ rest)) =
          numOut true (pNat (natChars (-n).toNat ++ rest)) := by
        simp [pVal, skipWs, isWsChar, isDigitChar]
      rw [hstep, pNat_natChars hd]
      simp only [numOut, cond]
      have hx : -((((-n).toNat) : Int)) = n := by omega
      rw [hx]
    · simp only [sVal, intChars, if_neg hn]
      rcases Nat.eq_zero_or_pos n.toNat with hz | hp
      · rw [hz, natChars_zero]
        have hn0 : n = 0 := by omega
        subst hn0
        simp only [List.cons_append, List.nil_append]
        have hstep : pVal (f + 1) ('0' :: rest) = numOut false (pNat ('0' :: rest)) := by
          simp [pVal, skipWs, isWsChar, isDigitChar]
        have hp0 : pNat ('0' :: rest) = some (0, rest) := by
          cases rest with
          | nil => simp [pNat]
          | cons r rs =>
            have hr : isDigitChar r = false := by simpa [numDelim] using hd
            simp [pNat, hr]
        rw [hstep, hp0]
        simp [numOut]
      · obtain ⟨c, cs, heq, hdig, hne0⟩ := natChars_pos_head n.toNat hp
        obtain ⟨hws, hq, ht, hfc, hnc, hmc, _⟩ := digit_head_facts hdig
        have hkey : pNat (natChars n.toNat ++ rest) = some (n.toNat, rest) :=
          pNat_natChars hd
        rw [heq, List.cons_append] at hkey
        rw [heq, List.cons_append]
        have hstep : pVal (f + 1) (c :: (cs ++ rest)) =
            numOut false (pNat (c :: (cs ++ rest))) := by
          simp [pVal, skipWs_not_ws hws, hq, ht, hfc, hnc, hmc, hdig]
        rw [hstep, hkey]
        simp only [numOut, cond]
        have hx : (((n.toNat) : Int)) = n := by omega
        rw [hx]
  | jbool b =>
    intro fuel rest hf _hd
    simp only [sizeV] at hf
    obtain ⟨f, rfl⟩ : ∃ f, fuel = f + 1 := ⟨fuel - 1, by omega⟩
    cases b
    · simp only [sVal, List.cons_append, List.nil_append]
      simp [pVal, skipWs, isWsChar, isDigitChar]
    · simp only [sVal, List.cons_append, List.nil_append]
      simp [pVal, skipWs, isWsChar, isDigitChar]
  | null =>
    intro fuel rest hf _hd
    simp only [sizeV] at hf
    obtain ⟨f, rfl⟩ : ∃ f, fuel = f + 1 := ⟨fuel - 1, by omega⟩
    simp only [sVal, List.cons_append, List.nil_append]
    simp [pVal, skipWs, isWsChar, isDigitChar]
  | arr l =>
    intro fuel rest hf _hd
    simp only [sizeV] at hf
    obtain ⟨f, rfl⟩ : ∃ f, fuel = f + 1 := ⟨fuel - 1, by omega⟩
    have hsz : sizeA l ≤ f := by omega
    simp only [sVal, List.cons_append, List.append_assoc, List.singleton_append,
      List.nil_append]
    rw [pVal_lbrack]
    cases l with
    | nil =>
      rw [sElems, List.nil_append, skipWs_not_ws (by decide : isWsChar ']' = false)]
      simp
    | cons v l' =>
      obtain ⟨c, cs, heq, hws, hbr, _⟩ := sVal_head v
      obtain ⟨tail, htl⟩ : ∃ tail, sElems (JArr.cons v l') ++ ']' :: rest = c :: tail := by
        cases l' with
        | nil => exact ⟨cs ++ ']' :: rest, by rw [sElems_one, heq]; simp⟩
        | cons w l'' =>
          exact ⟨cs ++ ',' :: sElems (JArr.cons w l'') ++ ']' :: rest, by
            rw [sElems_cons, heq]; simp⟩
      rw [htl, skipWs_not_ws hws]
      show (if c = ']' then some (JVal.arr .nil, tail)
        else arrOut (pElemsA f (c :: tail))) = some (JVal.arr (JArr.cons v l'), rest)
      rw [if_neg hbr, ← htl,
        rtA (JArr.cons v l') f rest (fun h => JArr.noConfusion h) hsz]
      simp [arrOut]
  | obj l =>
    intro fuel rest hf _hd
    simp only [sizeV] at hf
    obtain ⟨f, rfl⟩ : ∃ f, fuel = f + 1 := ⟨fuel - 1, by omega⟩
    have hsz : sizeO l ≤ f := by omega
    simp only [sVal, List.cons_append, List.append_assoc, List.singleton_append,
      List.nil_append]
    rw [pVal_lbrace]
    cases l with
    | nil =>
      rw [sMembers, List.nil_append,
        skipWs_not_ws (by decide : isWsChar (Char.ofNat 125) = false)]
      simp
    | cons k v l' =>
      obtain ⟨tail, htl⟩ : ∃ tail,
          sMembers (JObj.cons k v l') ++ Char.ofNat 125 :: rest = '"' :: tail := by
        cases l' with
        | nil =>
          exact ⟨k.data.flatMap escChar ++ '"' :: ':' :: (sVal v ++ Char.ofNat 125 :: rest),
            by rw [sMembers_one]; simp [strChars]⟩
        | cons k' v' l'' =>
          exact ⟨k.data.flatMap escChar ++ '"' :: ':' :: (sVal v ++ ',' ::
              (sMembers (JObj.cons k' v' l'') ++ Char.ofNat 125 :: rest)),
            by rw [sMembers_cons]; simp [strChars]⟩
      rw [htl, skipWs_not_ws (by decide : isWsChar '"' = false)]
      show (if '"' = Char.ofNat 125 then some (JVal.obj .nil, tail)
        else objOut (pMembersO f ('"' :: tail))) = some (JVal.obj (JObj.cons k v l'), rest)
      rw [if_neg (by decide : ¬('"' = Char.ofNat 125)), ← htl,
        rtO (JObj.cons k v l') f rest (fun h => JObj.noConfusion h) hsz]
      simp [objOut]

/-- Parsing inverts serialization for a nonempty array-element list. -/
theorem rtA (l : JArr) : ∀ (fuel : Nat) (rest : List Char), l ≠ .nil → sizeA l ≤ fuel →
    pElemsA fuel (sElems l ++ ']' :: rest) = some (l, rest) := by
  cases l with
  | nil =>
    intro fuel rest hne _
    exact absurd rfl hne
  | cons v l' =>
    intro fuel rest _ hsz
    obtain ⟨f, rfl⟩ : ∃ f, fuel = f + 1 := ⟨fuel - 1, by
      simp only [sizeA] at hsz
      omega⟩
    have hszv : sizeV v ≤ f := by
      simp only [sizeA] at hsz
      omega
    have hszl : sizeA l' ≤ f := by
      simp only [sizeA] at hsz
      omega
    cases l' with
    | nil =>
      rw [sElems_one]
      have h1 : pVal f (sVal v ++ ']' :: rest) = some (v, ']' :: rest) :=
        rtV v f (']' :: rest) hszv (numDelim_cons (by decide) _)
      simp only [pElemsA, h1]
      rw [skipWs_not_ws (by decide : isWsChar ']' = false)]
      simp
    | cons w l'' =>
      rw [sElems_cons]
      simp only [List.append_assoc, List.cons_append]
      have h1 : pVal f (sVal v ++ ',' :: (sElems (JArr.cons w l'') ++ ']' :: rest)) =
          some (v, ',' :: (sElems (JArr.cons w l'') ++ ']' :: rest)) :=
        rtV v f _ hszv (numDelim_cons (by decide) _)
      simp only [pElemsA, h1]
      rw [skipWs_not_ws (by decide : isWsChar ',' = false)]
      simp only [if_pos rfl]
      rw [rtA (JArr.cons w l'') f rest (fun h => JArr.noConfusion h) hszl]
      simp [consElem]

/-- Parsing inverts serialization for a nonempty object-member list. -/
theorem rtO (l : JObj) : ∀ (fuel : Nat) (rest : List Char), l ≠ .nil → sizeO l ≤ fuel →
    pMembersO fuel (sMembers l ++ Char.ofNat 125 :: rest) = some (l, rest) := by
  cases l with
  | nil =>
    intro fuel rest hne _
    exact absurd rfl hne
  | cons k v l' =>
    intro fuel rest _ hsz
    obtain ⟨f, rfl⟩ : ∃ f, fuel = f + 1 := ⟨fuel - 1, by
      simp only [sizeO] at hsz
      omega⟩
    obtain ⟨kd⟩ := k
    have hszk : 2 * kd.length + 1 ≤ f := by
      simp only [sizeO] at hsz
      omega
    have hszv : sizeV v ≤ f := by
      simp only [sizeO] at hsz
      omega
    have hszl : sizeO l' ≤ f := by
      simp only [sizeO] at hsz
      omega
    cases l' with
    | nil =>
      rw [sMembers_one]
      simp only [strChars, List.cons_append, List.append_assoc, List.nil_append]
      have hk : pStr f (kd.flatMap escChar ++ '"' :: (':' :: (sVal v ++ Char.ofNat 125 :: rest))) =
          some (kd, ':' :: (sVal v ++ Char.ofNat 125 :: rest)) :=
        pStr_escape kd f _ hszk
      have hv : pVal f (sVal v ++ Char.ofNat 125 :: rest) =
          some (v, Char.ofNat 125 :: rest) :=
        rtV v f _ hszv (numDelim_cons (by decide) _)
      simp only [pMembersO, skipWs_not_ws (by decide : isWsChar '"' = false),
        if_pos rfl, hk, hv]
      rw [skipWs_not_ws (by decide : isWsChar ':' = false)]
      simp only [if_pos rfl, hv]
      rw [skipWs_not_ws (by decide : isWsChar (Char.ofNat 125) = false)]
      simp
    | cons k' v' l'' =>
      rw [sMembers_cons]
      simp only [strChars, List.cons_append, List.append_assoc, List.nil_append]
      have hk : pStr f (kd.flatMap escChar ++ '"' ::
          (':' :: (sVal v ++ ',' :: (sMembers (JObj.cons k' v' l'') ++
            Char.ofNat 125 :: rest)))) =
          some (kd, ':' :: (sVal v ++ ',' :: (sMembers (JObj.cons k' v' l'') ++
            Char.ofNat 125 :: rest))) :=
        pStr_escape kd f _ hszk
      have hv : pVal f (sVal v ++ ',' :: (sMembers (JObj.cons k' v' l'') ++
          Char.ofNat 125 :: rest)) =
          some (v, ',' :: (sMembers (JObj.cons k' v' l'') ++ Char.ofNat 125 :: rest)) :=
        rtV v f _ hszv (numDelim_cons (by decide) _)
      simp only [pMembersO, skipWs_not_ws (by decide : isWsChar '"' = false),
        if_pos rfl, hk]
      rw [skipWs_not_ws (by decide : isWsChar ':' = false)]
      simp only [if_pos rfl, hv]
      rw [skipWs_not_ws (by decide : isWsChar ',' = false)]
      simp only [if_pos rfl]
      rw [rtO (JObj.cons k' v' l'') f rest (fun h => JObj.noConfusion h) hszl]
      simp [consMember]

end

theorem escChar_length_pos (c : Char) : 1 ≤ (escChar c).length := by
  simp only [escChar]
  split_ifs <;> simp

theorem flatMap_escChar_length (l : List Char) :
    l.length ≤ (l.flatMap escChar).length := by
  induction l with
  | nil => simp
  | cons c l' ih =>
    simp only [List.flatMap_cons, List.length_append, List.length_cons]
    have := escChar_length_pos c
    omega

theorem natChars_length_pos (m : Nat) : 1 ≤ (natChars m).length := by
  rw [natChars_eq]
  split_ifs <;> simp

mutual

/-- The parsing fuel bound is dominated by twice the serialized length. -/
theorem szV (v : JVal) : sizeV v ≤ 2 * (sVal v).length := by
  cases v with
  | str s =>
    have := flatMap_escChar_length s.data
    simp only [sizeV, sVal, strChars, List.length_cons, List.length_append,
      List.length_singleton]
    omega
  | num n =>
    simp only [sizeV, sVal, intChars]
    split_ifs with h
    · simp only [List.length_cons]
      omega
    · have := natChars_length_pos n.toNat
      omega
  | jbool b => cases b <;> simp [sizeV, sVal]
  | null => simp [sizeV, sVal]
  | arr l =>
    have := szA l
    simp only [sizeV, sVal, List.length_cons, List.length_append, List.length_singleton]
    omega
  | obj l =>
    have := szO l
    simp only [sizeV, sVal, List.length_cons, List.length_append, List.length_singleton]
    omega

theorem szA (l : JArr) : sizeA l ≤ 2 * (sElems l).length + 1 := by
  cases l with
  | nil => simp [sizeA, sElems]
  | cons v l' =>
    cases l' with
    | nil =>
      have := szV v
      rw [sElems_one]
      simp only [sizeA]
      omega
    | cons w l'' =>
      have h1 := szV v
      have h2 := szA (JArr.cons w l'')
      rw [sElems_cons]
      simp only [sizeA, List.length_append, List.length_cons]
      simp only [sizeA] at h2
      omega

theorem szO (l : JObj) : sizeO l ≤ 2 * (sMembers l).length + 1 := by
  cases l with
  | nil => simp [sizeO, sMembers]
  | cons k v l' =>
    cases l' with
    | nil =>
      have h1 := szV v
      have h2 := flatMap_escChar_length k.data
      rw [sMembers_one]
      simp only [sizeO, strChars, List.length_append, List.length_cons,
        List.length_singleton]
      omega
    | cons k' v' l'' =>
      have h1 := szV v
      have h2 := flatMap_escChar_length k.data
      have h3 := szO (JObj.cons k' v' l'')
      rw [sMembers_cons]
      simp only [sizeO, strChars, List.length_append, List.length_cons,
        List.length_singleton]
      simp only [sizeO] at h3
      omega

end

/-- Full JSON round-trip: parsing a stringified value yields the value back. -/
theorem jsonParse_stringify (v : JVal) : jsonParse (jsonStringify v) = some v := by
  have hb : sizeV v ≤ 2 * (sVal v).length + 2 := le_trans (szV v) (by omega)
  have h := rtV v (2 * (sVal v).length + 2) [] hb rfl
  rw [List.append_nil] at h
  show (match pVal (2 * (sVal v).length + 2) (sVal v) with
        | some (r, rest) => if skipWs rest = [] then some r else none
        | none => none) = some v
  rw [h]
  simp [skipWs]

/-! ### Well-formedness of typed values as JavaScript values

A JavaScript object cannot contain the same key twice, so object member
lists with duplicate keys do not denote JavaScript values. -/

/-- Is `k` a key of the member list? -/
def keyMem (k : String) : JObj → Bool
  | .nil => false
  | .cons k' _ l => k == k' || keyMem k l

mutual

/-- The value denotes a JavaScript value: object keys are duplicate-free,
recursively. -/
def wfV : JVal → Bool
  | .str _ => true
  | .num _ => true
  | .jbool _ => true
  | .null => true
  | .arr l => wfA l
  | .obj l => wfO l

def wfA : JArr → Bool
  | .nil => true
  | .cons v l => wfV v && wfA l

def wfO : JObj → Bool
  | .nil => true
  | .cons k v l => !(keyMem k l) && wfV v && wfO l

end

/-- The four structured (non-text, non-null) kinds: number, boolean,
ordered-list, keyed-map. -/
def structuredKind : JVal → Bool
  | .num _ => true
  | .jbool _ => true
  | .arr _ => true
  | .obj _ => true
  | _ => false

/-! ### `StoragePollingManager` (useStorage.ts lines 8-60)

The manager is modelled in a browser environment (`window` and
`clearInterval` defined, so `startPolling` / `stopPolling` take their main
paths).  Subscriber callbacks are identified by `Nat` ids; the `Set` of
callbacks is a duplicate-free insertion-ordered list (JavaScript `Set`
semantics).  `activeTimers` counts intervals created by `setInterval` and not
yet cleared, so "exactly one timer" is expressible. -/

structure PollState where
  intervalId : Option Nat
  subscribers : List Nat
  nextTimer : Nat
  activeTimers : Nat
deriving DecidableEq

/-- The manager singleton's initial state (fields of the class declaration). -/
def pollInit : PollState :=
  { intervalId := none, subscribers := [], nextTimer := 0, activeTimers := 0 }

/-- `Set.add`: append iff not already present. -/
def setAdd (cb : Nat) (l : List Nat) : List Nat :=
  if cb ∈ l then l else l ++ [cb]

/-- `startPolling`: `this.intervalId = setInterval(...)` (browser path). -/
def startPolling (s : PollState) : PollState :=
  { s with intervalId := some s.nextTimer, nextTimer := s.nextTimer + 1,
           activeTimers := s.activeTimers + 1 }

/-- `stopPolling`: clear the interval if one is set. -/
def stopPolling (s : PollState) : PollState :=
  if s.intervalId ≠ none then
    { s with intervalId := none, activeTimers := s.activeTimers - 1 }
  else s

/-- `subscribe(callback)` (lines 13-19): add, then start polling when this is
the first subscriber and no interval exists. -/
def subscribe (cb : Nat) (s : PollState) : PollState :=
  let s1 := { s with subscribers := setAdd cb s.subscribers }
  if s1.subscribers.length = 1 ∧ s1.intervalId = none then startPolling s1 else s1

/-- The unsubscribe closure returned by `subscribe` (lines 22-29): delete,
then stop polling when no subscribers remain and an interval exists. -/
def unsubscribe (cb : Nat) (s : PollState) : PollState :=
  let s1 := { s with subscribers := s.subscribers.erase cb }
  if s1.subscribers.length = 0 ∧ s1.intervalId ≠ none then stopPolling s1 else s1

/-- An externally observable manager operation. -/
inductive PollOp : Type where
  | sub : Nat → PollOp
  | unsub : Nat → PollOp
deriving DecidableEq

def applyOp (s : PollState) : PollOp → PollState
  | .sub cb => subscribe cb s
  | .unsub cb => unsubscribe cb s

def applyOps (ops : List PollOp) : PollState := ops.foldl applyOp pollInit

/-- The state invariant of the polling manager: the timer runs iff there are
subscribers, exactly one interval is live iff subscribers exist, and the
subscriber set is duplicate-free. -/
def PollInv (s : PollState) : Prop :=
  (s.intervalId.isSome ↔ s.subscribers ≠ []) ∧
    s.activeTimers = (if s.subscribers = [] then 0 else 1) ∧
    s.subscribers.Nodup

instance (s : PollState) : Decidable (PollInv s) := by
  unfold PollInv
  infer_instance

theorem pollInv_init : PollInv pollInit := by
  constructor
  · simp [pollInit]
  constructor
  · simp [pollInit]
  · simp [pollInit]

theorem pollInv_subscribe {s : PollState} (h : PollInv s) (cb : Nat) :
    PollInv (subscribe cb s) := by
  obtain ⟨h1, h2, h3⟩ := h
  unfold subscribe setAdd
  by_cases hm : cb ∈ s.subscribers
  · have hne : s.subscribers ≠ [] := by
      intro hnil
      rw [hnil] at hm
      cases hm
    have hsome : s.intervalId.isSome := h1.mpr hne
    have hnn : s.intervalId ≠ none := by
      cases hio : s.intervalId with
      | none => rw [hio] at hsome; cases hsome
      | some t => simp
    simp only [if_pos hm]
    rw [if_neg (by
      intro hc
      exact hnn hc.2)]
    exact ⟨h1, h2, h3⟩
  · simp only [if_neg hm]
    by_cases hnil : s.subscribers = []
    · have h0 : s.intervalId = none := by
        cases hio : s.intervalId with
        | none => rfl
        | some t =>
          exfalso
          exact (h1.mp (by simp [hio])) hnil
      rw [if_pos (by simp [hnil, h0])]
      have ha : s.activeTimers = 0 := by rw [h2, if_pos hnil]
      refine ⟨by simp [startPolling], by simp [startPolling, ha],
        by simp [startPolling, hnil]⟩
    · have hlen : (s.subscribers ++ [cb]).length ≠ 1 := by
        have : 1 ≤ s.subscribers.length := by
          cases hs : s.subscribers with
          | nil => exact absurd hs hnil
          | cons a l => simp
        simp only [List.length_append, List.length_singleton]
        omega
      rw [if_neg (by
        intro hc
        exact hlen hc.1)]
      refine ⟨?_, ?_, ?_⟩
      · simp only []
        constructor
        · intro _
          simp
        · intro _
          exact h1.mpr hnil
      · have hne : s.subscribers ++ [cb] ≠ [] := by simp
        simp only [if_neg hne]
        rw [h2, if_neg hnil]
      · simp [List.nodup_append, h3, hm]

theorem pollInv_unsubscribe {s : PollState} (h : PollInv s) (cb : Nat) :
    PollInv (unsubscribe cb s) := by
  obtain ⟨h1, h2, h3⟩ := h
  unfold unsubscribe stopPolling
  by_cases he : s.subscribers.erase cb = []
  · by_cases hio : s.intervalId = none
    · have hnil : s.subscribers = [] := by
        by_contra hne
        exact (Option.isSome_iff_ne_none.mp (h1.mpr hne)) hio
      rw [if_neg (by
        intro hc
        exact hc.2 hio)]
      refine ⟨?_, ?_, ?_⟩
      · constructor
        · intro hx
          simp [hio] at hx
        · intro hx
          exact absurd he hx
      · simp [he, h2, hnil]
      · simp only []
        exact h3.erase cb
    · have hne2 : s.subscribers ≠ [] := by
        intro hnil
        exact hio (Option.not_isSome_iff_eq_none.mp (fun hx => (h1.mp hx) hnil))
      have ha : s.activeTimers = 1 := by rw [h2, if_neg hne2]
      rw [if_pos ⟨by rw [he]; rfl, hio⟩]
      rw [if_pos hio]
      refine ⟨by simp [he], by simp [he, ha], by simp [he]⟩
  · have hne2 : s.subscribers ≠ [] := by
      intro hnil
      rw [hnil] at he
      simp [List.erase] at he
    rw [if_neg (by
      intro hc
      have := hc.1
      rw [List.length_eq_zero] at this
      exact he this)]
    refine ⟨?_, ?_, ?_⟩
    · constructor
      · intro _
        exact he
      · intro _
        exact h1.mpr hne2
    · simp only [if_neg he]
      rw [h2, if_neg hne2]
    · exact h3.erase cb

/-- Subscribing an already-present callback is a no-op (under the invariant). -/
theorem subscribe_mem {s : PollState} (h : PollInv s) {cb : Nat}
    (hm : cb ∈ s.subscribers) : subscribe cb s = s := by
  obtain ⟨h1, h2, h3⟩ := h
  have hne : s.subscribers ≠ [] := by
    intro hnil
    rw [hnil] at hm
    cases hm
  have hnn : s.intervalId ≠ none := Option.isSome_iff_ne_none.mp (h1.mpr hne)
  unfold subscribe setAdd
  simp only [if_pos hm]
  rw [if_neg (fun hc => hnn hc.2)]

/-- The membership count of a callback after `subscribe` is exactly one. -/
theorem subscribe_count {s : PollState} (h : PollInv s) (cb : Nat) :
    (subscribe cb s).subscribers.count cb = 1 := by
  have h3 := h.2.2
  by_cases hm : cb ∈ s.subscribers
  · rw [subscribe_mem h hm]
    exact List.count_eq_one_of_mem h3 hm
  · unfold subscribe setAdd
    have hcnt : (s.subscribers ++ [cb]).count cb = 1 := by
      rw [List.count_append, List.count_eq_zero_of_not_mem hm]
      simp
    simp only [if_neg hm]
    split_ifs <;> simpa [startPolling] using hcnt

/-- Releasing a callback that is not registered is a no-op (under the
invariant): the subscriber set and the timer state are unchanged. -/
theorem unsubscribe_absent {s : PollState} (h : PollInv s) {cb : Nat}
    (hm : cb ∉ s.subscribers) : unsubscribe cb s = s := by
  obtain ⟨h1, h2, h3⟩ := h
  have her : s.subscribers.erase cb = s.subscribers := List.erase_of_not_mem hm
  unfold unsubscribe
  simp only [her]
  by_cases hnil : s.subscribers = []
  · have h0 : s.intervalId = none := by
      cases hio : s.intervalId with
      | none => rfl
      | some t =>
        exfalso
        exact (h1.mp (by simp [hio])) hnil
    rw [if_neg (fun hc => hc.2 h0)]
  · have hlen : s.subscribers.length ≠ 0 := by
      intro hz
      exact hnil (List.length_eq_zero.mp hz)
    rw [if_neg (fun hc => hlen hc.1)]

/-- One poll tick: invoke every registered change-check closure in
registration order, swallowing exceptions per closure
(`try { callback() } catch { /* ignored */ }`, lines 39-45).  Returns the
final application state and the ids invoked. -/
def runTick {σ : Type} (cbs : List (Nat × (σ → Except Unit σ))) (s : σ) : σ × List Nat :=
  cbs.foldl (fun acc c =>
    (match c.2 acc.1 with
     | .ok t => t
     | .error _ => acc.1, acc.2 ++ [c.1])) (s, [])

theorem runTick_go {σ : Type} (cbs : List (Nat × (σ → Except Unit σ))) :
    ∀ (s : σ) (acc : List Nat),
      (cbs.foldl (fun acc c =>
        (match c.2 acc.1 with
         | .ok t => t
         | .error _ => acc.1, acc.2 ++ [c.1])) (s, acc)).2 = acc ++ cbs.map Prod.fst := by
  induction cbs with
  | nil => simp
  | cons c cbs ih =>
    intro s acc
    simp only [List.foldl_cons, List.map_cons]
    rw [ih]
    simp

/-- Every closure is invoked on a tick, in registration order, regardless of
which closures throw. -/
theorem runTick_invokes {σ : Type} (cbs : List (Nat × (σ → Except Unit σ))) (s : σ) :
    (runTick cbs s).2 = cbs.map Prod.fst :=
  runTick_go cbs s []

/-- A timer tick of the manager: if the interval is live, run every
subscriber's closure (via `runTick`); the manager's own state, in particular
`intervalId`, is not touched by the tick handler. -/
def managerTick {σ : Type} (ps : PollState) (beh : Nat → σ → Except Unit σ) (s : σ) :
    PollState × σ × List Nat :=
  match ps.intervalId with
  | none => (ps, s, [])
  | some _ => (ps, runTick (ps.subscribers.map (fun id => (id, beh id))) s)

/-! ### `encodeURIComponent` / `decodeURIComponent` (host primitives used by
`setCookie` / `getCookie`). -/

/-- Characters `encodeURIComponent` leaves unescaped
(`A-Z a-z 0-9 - _ . ! ~ * ' ( )`). -/
def isUnreservedURI (c : Char) : Bool :=
  c.isAlphanum || c = '-' || c = '_' || c = '.' || c = '!' ||
    c = '~' || c = '*' || c = '\'' || c = '(' || c = ')'

/-- Upper-case hexadecimal digit (as produced by `encodeURIComponent`). -/
def hexCharUpper (d : Nat) : Char :=
  if d < 10 then Char.ofNat (48 + d) else Char.ofNat (55 + d)

/-- UTF-8 encoding of a Unicode scalar value. -/
def utf8Bytes (n : Nat) : List Nat :=
  if n < 128 then [n]
  else if n < 2048 then [192 + n / 64, 128 + n % 64]
  else if n < 65536 then [224 + n / 4096, 128 + n / 64 % 64, 128 + n % 64]
  else [240 + n / 262144, 128 + n / 4096 % 64, 128 + n / 64 % 64, 128 + n % 64]

/-- A percent-escape `%XY` for one byte. -/
def pctByte (b : Nat) : List Char := ['%', hexCharUpper (b / 16), hexCharUpper (b % 16)]

/-- `encodeURIComponent` on one character. -/
def encChar (c : Char) : List Char :=
  if isUnreservedURI c then [c] else (utf8Bytes c.toNat).flatMap pctByte

/-- `encodeURIComponent`. -/
def encodeURIComponent (s : String) : String := ⟨s.data.flatMap encChar⟩

/-- Read one UTF-8 continuation byte given as a percent-escape, returning its
six payload bits. -/
def decCont : List Char → Option (Nat × List Char)
  | '%' :: h :: l :: rest =>
    match hexVal h, hexVal l with
    | some vh, some vl =>
      let b := vh * 16 + vl
      if 128 ≤ b && b < 192 then some (b - 128, rest) else none
    | _, _ => none
  | _ => none

/-- Decoding loop of `decodeURIComponent`: literal characters pass through,
percent-escapes are decoded as strict UTF-8 (`none` models a `URIError`). -/
def decLoop : Nat → List Char → Option (List Char)
  | 0, _ => none
  | _ + 1, [] => some []
  | fuel + 1, c :: cs =>
    if c = '%' then
      match cs with
      | h :: l :: rest =>
        match hexVal h, hexVal l with
        | some vh, some vl =>
          let b := vh * 16 + vl
          if b < 128 then
            match decLoop fuel rest with
            | some out => some (Char.ofNat b :: out)
            | none => none
          else if b < 194 then none
          else if b < 224 then
            match decCont rest with
            | some (x1, rest1) =>
              match decLoop fuel rest1 with
              | some out => some (Char.ofNat ((b - 192) * 64 + x1) :: out)
              | none => none
            | none => none
          else if b < 240 then
            match decCont rest with
            | some (x1, rest1) =>
              match decCont rest1 with
              | some (x2, rest2) =>
                let n := (b - 224) * 4096 + x1 * 64 + x2
                if n < 2048 then none
                else if 55296 ≤ n && n ≤ 57343 then none
                else
                  match decLoop fuel rest2 with
                  | some out => some (Char.ofNat n :: out)
                  | none => none
              | none => none
            | none => none
          else if b < 245 then
            match decCont rest with
            | some (x1, rest1) =>
              match decCont rest1 with
              | some (x2, rest2) =>
                match decCont rest2 with
                | some (x3, rest3) =>
                  let n := (b - 240) * 262144 + x1 * 4096 + x2 * 64 + x3
                  if n < 65536 then none
                  else if 1114111 < n then none
                  else
                    match decLoop fuel rest3 with
                    | some out => some (Char.ofNat n :: out)
                    | none => none
                | none => none
              | none => none
            | none => none
          else none
        | _, _ => none
      | _ => none
    else
      match decLoop fuel cs with
      | some out => some (c :: out)
      | none => none

/-- `decodeURIComponent` (`none` models a thrown `URIError`). -/
def decodeURIComponent (s : String) : Option String :=
  (decLoop (s.data.length + 1) s.data).map fun l => (⟨l⟩ : String)

theorem hexVal_hexCharUpper {d : Nat} (h : d < 16) : hexVal (hexCharUpper d) = some d := by
  have hb : ∀ e, e < 16 → hexVal (hexCharUpper e) = some e := by decide
  exact hb d h

theorem char_toNat_valid (c : Char) :
    c.toNat < 55296 ∨ (57343 < c.toNat ∧ c.toNat < 1114112) := by
  have h := c.valid
  unfold UInt32.isValidChar Nat.isValidChar at h
  exact h

theorem decCont_pct {x : Nat} (hx : x < 64) (tail : List Char) :
    decCont ('%' :: hexCharUpper ((128 + x) / 16) ::
      hexCharUpper ((128 + x) % 16) :: tail) = some (x, tail) := by
  simp only [decCont]
  rw [hexVal_hexCharUpper (by omega), hexVal_hexCharUpper (by omega)]
  have hb : (128 + x) / 16 * 16 + (128 + x) % 16 = 128 + x := by omega
  simp only [hb]
  rw [if_pos (by simp only [Bool.and_eq_true, decide_eq_true_eq]; omega)]
  simp

theorem decLoop_pct1 (f : Nat) {n : Nat} (hn : n < 128) (tail : List Char) :
    decLoop (f + 1) (pctByte n ++ tail) =
      match decLoop f tail with
      | some out => some (Char.ofNat n :: out)
      | none => none := by
  simp only [pctByte, List.cons_append, List.nil_append]
  simp only [decLoop, if_pos rfl, if_true]
  rw [hexVal_hexCharUpper (by omega), hexVal_hexCharUpper (by omega)]
  have hb : n / 16 * 16 + n % 16 = n := by omega
  simp only [hb]
  rw [if_pos hn]

theorem decLoop_pct2 (f : Nat) {n : Nat} (hn1 : 128 ≤ n) (hn2 : n < 2048)
    (tail : List Char) :
    decLoop (f + 1) (pctByte (192 + n / 64) ++ (pctByte (128 + n % 64) ++ tail)) =
      match decLoop f tail with
      | some out => some (Char.ofNat n :: out)
      | none => none := by
  simp only [pctByte, List.cons_append, List.nil_append]
  simp only [decLoop, if_pos rfl, if_true]
  rw [hexVal_hexCharUpper (by omega), hexVal_hexCharUpper (by omega)]
  have hb : (192 + n / 64) / 16 * 16 + (192 + n / 64) % 16 = 192 + n / 64 := by omega
  simp only [hb]
  rw [if_neg (by omega), if_neg (by omega), if_pos (by omega)]
  simp only [decCont_pct (show n % 64 < 64 by omega)]
  have hv : (192 + n / 64 - 192) * 64 + n % 64 = n := by omega
  simp only [hv]

theorem decLoop_pct3 (f : Nat) {n : Nat} (hn1 : 2048 ≤ n) (hn2 : n < 65536)
    (hs : ¬(55296 ≤ n ∧ n ≤ 57343)) (tail : List Char) :
    decLoop (f + 1) (pctByte (224 + n / 4096) ++ (pctByte (128 + n / 64 % 64) ++
      (pctByte (128 + n % 64) ++ tail))) =
      match decLoop f tail with
      | some out => some (Char.ofNat n :: out)
      | none => none := by
  simp only [pctByte, List.cons_append, List.nil_append]
  simp only [decLoop, if_pos rfl, if_true]
  rw [hexVal_hexCharUpper (by omega), hexVal_hexCharUpper (by omega)]
  have hb : (224 + n / 4096) / 16 * 16 + (224 + n / 4096) % 16 = 224 + n / 4096 := by
    omega
  simp only [hb]
  rw [if_neg (by omega), if_neg (by omega), if_neg (by omega), if_pos (by omega)]
  simp only [decCont_pct (show n / 64 % 64 < 64 by omega),
    decCont_pct (show n % 64 < 64 by omega)]
  have hv : (224 + n / 4096 - 224) * 4096 + n / 64 % 64 * 64 + n % 64 = n := by omega
  simp only [hv]
  rw [if_neg (by omega),
    if_neg (by simp only [Bool.and_eq_true, decide_eq_true_eq]; omega)]

theorem decLoop_pct4 (f : Nat) {n : Nat} (hn1 : 65536 ≤ n) (hn2 : n ≤ 1114111)
    (tail : List Char) :
    decLoop (f + 1) (pctByte (240 + n / 262144) ++ (pctByte (128 + n / 4096 % 64) ++
      (pctByte (128 + n / 64 % 64) ++ (pctByte (128 + n % 64) ++ tail)))) =
      match decLoop f tail with
      | some out => some (Char.ofNat n :: out)
      | none => none := by
  simp only [pctByte, List.cons_append, List.nil_append]
  simp only [decLoop, if_pos rfl, if_true]
  rw [hexVal_hexCharUpper (by omega), hexVal_hexCharUpper (by omega)]
  have hb : (240 + n / 262144) / 16 * 16 + (240 + n / 262144) % 16 = 240 + n / 262144 := by
    omega
  simp only [hb]
  rw [if_neg (by omega), if_neg (by omega), if_neg (by omega), if_neg (by omega),
    if_pos (by omega)]
  simp only [decCont_pct (show n / 4096 % 64 < 64 by omega),
    decCont_pct (show n / 64 % 64 < 64 by omega),
    decCont_pct (show n % 64 < 64 by omega)]
  have hv : (240 + n / 262144 - 240) * 262144 + n / 4096 % 64 * 4096 +
      n / 64 % 64 * 64 + n % 64 = n := by omega
  simp only [hv]
  rw [if_neg (by omega), if_neg (by omega)]

/-- Decoding inverts encoding, character list level. -/
theorem decLoop_encChar : ∀ (l : List Char) (fuel : Nat), l.length + 1 ≤ fuel →
    decLoop fuel (l.flatMap encChar) = some l := by
  intro l
  induction l with
  | nil =>
    intro fuel hf
    obtain ⟨f, rfl⟩ : ∃ f, fuel = f + 1 := ⟨fuel - 1, by omega⟩
    simp [decLoop]
  | cons c l' ih =>
    intro fuel hf
    simp only [List.length_cons] at hf
    obtain ⟨f, rfl⟩ : ∃ f, fuel = f + 1 := ⟨fuel - 1, by omega⟩
    have hguard : l'.length + 1 ≤ f := by omega
    simp only [List.flatMap_cons, List.append_assoc]
    by_cases hu : isUnreservedURI c
    · have hne : c ≠ '%' := by
        intro he
        rw [he] at hu
        exact absurd hu (by decide)
      rw [show encChar c = [c] from by simp [encChar, hu]]
      simp only [List.singleton_append]
      simp only [decLoop, if_neg hne, ih f hguard]
    · rw [show encChar c = (utf8Bytes c.toNat).flatMap pctByte from by
        simp [encChar, hu]]
      have hval := char_toNat_valid c
      by_cases h1 : c.toNat < 128
      · rw [show utf8Bytes c.toNat = [c.toNat] from by simp [utf8Bytes, h1]]
        simp only [List.flatMap_cons, List.flatMap_nil, List.append_nil]
        rw [decLoop_pct1 f h1, ih f hguard, Char.ofNat_toNat]
      · by_cases h2 : c.toNat < 2048
        · rw [show utf8Bytes c.toNat =
              [192 + c.toNat / 64, 128 + c.toNat % 64] from by
            simp [utf8Bytes, h1, h2]]
          simp only [List.flatMap_cons, List.flatMap_nil, List.append_nil,
            List.append_assoc]
          rw [decLoop_pct2 f (by omega) h2, ih f hguard, Char.ofNat_toNat]
        · by_cases h3 : c.toNat < 65536
          · rw [show utf8Bytes c.toNat =
                [224 + c.toNat / 4096, 128 + c.toNat / 64 % 64, 128 + c.toNat % 64] from by
              simp [utf8Bytes, h1, h2, h3]]
            simp only [List.flatMap_cons, List.flatMap_nil, List.append_nil,
              List.append_assoc]
            rw [decLoop_pct3 f (by omega) h3 (by omega), ih f hguard, Char.ofNat_toNat]
          · rw [show utf8Bytes c.toNat =
                [240 + c.toNat / 262144, 128 + c.toNat / 4096 % 64,
                  128 + c.toNat / 64 % 64, 128 + c.toNat % 64] from by
              simp [utf8Bytes, h1, h2, h3]]
            simp only [List.flatMap_cons, List.flatMap_nil, List.append_nil,
              List.append_assoc]
            rw [decLoop_pct4 f (by omega) (by omega), ih f hguard, Char.ofNat_toNat]

/-- `decodeURIComponent ∘ encodeURIComponent` is the identity. -/
theorem decode_encodeURIComponent (s : String) :
    decodeURIComponent (encodeURIComponent s) = some s := by
  obtain ⟨sd⟩ := s
  show (decLoop ((sd.flatMap encChar).length + 1) (sd.flatMap encChar)).map
    (fun l => (⟨l⟩ : String)) = some ⟨sd⟩
  have hlen : sd.length ≤ (sd.flatMap encChar).length := by
    induction sd with
    | nil => simp
    | cons c l ih =>
      have h1 : 1 ≤ (encChar c).length := by
        simp only [encChar]
        split_ifs with h
        · simp
        · simp only [utf8Bytes]
          split_ifs <;> simp [pctByte]
      simp only [List.flatMap_cons, List.length_append, List.length_cons]
      omega
  rw [decLoop_encChar sd ((sd.flatMap encChar).length + 1) (by omega)]
  rfl

/-! ### `Date.prototype.toUTCString` (host primitive used by `setCookie`). -/

/-- Two-digit zero-padded decimal. -/
def pad2 (n : Nat) : List Char := [digitChar (n / 10 % 10), digitChar (n % 10)]

/-- Four-digit zero-padded decimal (years 1000-9999 are rendered exactly). -/
def pad4 (n : Nat) : List Char :=
  [digitChar (n / 1000 % 10), digitChar (n / 100 % 10),
   digitChar (n / 10 % 10), digitChar (n % 10)]

/-- Month name, `1`-`12`. -/
def monthName : Nat → List Char
  | 1 => ['J', 'a', 'n']
  | 2 => ['F', 'e', 'b']
  | 3 => ['M', 'a', 'r']
  | 4 => ['A', 'p', 'r']
  | 5 => ['M', 'a', 'y']
  | 6 => ['J', 'u', 'n']
  | 7 => ['J', 'u', 'l']
  | 8 => ['A', 'u', 'g']
  | 9 => ['S', 'e', 'p']
  | 10 => ['O', 'c', 't']
  | 11 => ['N', 'o', 'v']
  | _ => ['D', 'e', 'c']

/-- Weekday name, `0` = Sunday. -/
def dayName : Nat → List Char
  | 0 => ['S', 'u', 'n']
  | 1 => ['M', 'o', 'n']
  | 2 => ['T', 'u', 'e']
  | 3 => ['W', 'e', 'd']
  | 4 => ['T', 'h', 'u']
  | 5 => ['F', 'r', 'i']
  | _ => ['S', 'a', 't']

/-- Proleptic-Gregorian civil date from days since the Unix epoch. -/
def civilFromDays (z0 : Int) : Int × Nat × Nat :=
  let z := z0 + 719468
  let era := z.fdiv 146097
  let doe := (z - era * 146097).toNat
  let yoe := (doe - doe / 1460 + doe / 36524 - doe / 146096) / 365
  let y : Int := (yoe : Int) + era * 400
  let doy := doe - (365 * yoe + yoe / 4 - yoe / 100)
  let mp := (5 * doy + 2) / 153
  let d := doy - (153 * mp + 2) / 5 + 1
  let m := if mp < 10 then mp + 3 else mp - 9
  (y + (if m ≤ 2 then 1 else 0), m, d)

/-- The characters of `new Date(ms).toUTCString()`:
`Www, DD Mon YYYY HH:MM:SS GMT`. -/
def toUTCChars (ms : Int) : List Char :=
  let days := ms.fdiv 86400000
  let msod := (ms - days * 86400000).toNat
  let ymd := civilFromDays days
  let wd := ((days + 4).emod 7).toNat
  dayName wd ++ [',', ' '] ++ pad2 ymd.2.2 ++ [' '] ++ monthName ymd.2.1 ++ [' '] ++
    pad4 ymd.1.toNat ++ [' '] ++ pad2 (msod / 3600000) ++ [':'] ++
    pad2 (msod / 60000 % 60) ++ [':'] ++ pad2 (msod / 1000 % 60) ++ [' ', 'G', 'M', 'T']

/-- `Date.prototype.toUTCString`. -/
def toUTCString (ms : Int) : String := ⟨toUTCChars ms⟩

/-! ### Cookie strings (`setCookie` / `removeCookie`, useStorage.ts 372-430)
and the host cookie jar. -/

/-- The caller-facing cookie options (`IUseStorageOptions.cookieOptions`);
`none` fields model omitted (JavaScript `undefined`) options. -/
structure CookieOpts where
  expires : Option Int := none
  path : Option String := none
  domain : Option String := none
  secure : Option Bool := none
  sameSite : Option String := none
deriving DecidableEq

/-- The cookie string assigned to `document.cookie` by `setCookie`
(lines 381-410), given the current time `now` in milliseconds. -/
def setCookieString (name value : String) (opts : CookieOpts) (now : Int) : String :=
  let path := opts.path.getD "/"
  let sameSite := opts.sameSite.getD "Lax"
  let secure := opts.secure.getD false
  let base := name ++ "=" ++ encodeURIComponent value
  let s1 :=
    match opts.expires with
    | some e =>
      if e ≠ 0 then base ++ "; expires=" ++ toUTCString (now + e * 86400000) else base
    | none => base ++ "; expires=" ++ toUTCString (now + 365 * 86400000)
  let s2 := s1 ++ "; path=" ++ path
  let s3 :=
    match opts.domain with
    | some dm => if dm.isEmpty then s2 else s2 ++ "; domain=" ++ dm
    | none => s2
  let s4 := if secure then s3 ++ "; secure" else s3
  s4 ++ "; SameSite=" ++ sameSite

/-- The past date literal `removeCookie` uses. -/
def epochExpires : List Char := "expires=Thu, 01 Jan 1970 00:00:00 UTC".data

/-- The cookie string assigned by `removeCookie` (lines 416-430). -/
def removeCookieString (name : String) (opts : CookieOpts) : String :=
  let path := opts.path.getD "/"
  let base := name ++ "=; expires=Thu, 01 Jan 1970 00:00:00 UTC; path=" ++ path
  match opts.domain with
  | some dm => if dm.isEmpty then base else base ++ "; domain=" ++ dm
  | none => base

/-- Split a character list at `;` boundaries (JavaScript
`String.prototype.split(';')`). -/
def splitSemis : List Char → List (List Char)
  | [] => [[]]
  | c :: cs =>
    if c = ';' then [] :: splitSemis cs
    else
      match splitSemis cs with
      | [] => [[c]]
      | h :: t => (c :: h) :: t

/-- Strip leading spaces (the `while (cookie.charAt(0) === ' ')` loop of
`getCookie`). -/
def trimSp : List Char → List Char
  | [] => []
  | c :: cs => if c = ' ' then trimSp cs else c :: cs

/-- The `; `-separated segments of a cookie string, leading spaces removed. -/
def cookieSegs (s : String) : List (List Char) := (splitSemis s.data).map trimSp

/-- Erase every entry with the given name from the cookie jar. -/
def jarErase (nm : String) (jar : List (String × String)) : List (String × String) :=
  jar.filter (fun p => p.1 != nm)

/-- The host's handling of an assignment to `document.cookie`: parse the
first `name=value` segment; a cookie whose attributes carry the epoch
`expires` date (the exact past-date literal `removeCookie` writes) is
deleted, anything else is stored.  (Expiry comparison below the granularity
of that literal is not modelled; see the remarks on `setValue`.) -/
def hostSetCookie (jar : List (String × String)) (cookieStr : String) :
    List (String × String) :=
  match cookieSegs cookieStr with
  | [] => jar
  | first :: attrs =>
    let nm : String := ⟨first.takeWhile (fun c => c ≠ '=')⟩
    let vl : String := ⟨(first.dropWhile (fun c => c ≠ '=')).drop 1⟩
    if attrs.contains epochExpires then jarErase nm jar
    else jarErase nm jar ++ [(nm, vl)]

/-- `document.cookie` (the getter): `"n1=v1; n2=v2; …"`. -/
def renderJarChars : List (String × String) → List Char
  | [] => []
  | [(n, v)] => n.data ++ '=' :: v.data
  | (n, v) :: rest => n.data ++ '=' :: v.data ++ ';' :: ' ' :: renderJarChars rest

/-- The scan loop of `getCookie` (lines 356-364): first segment that starts
with `name=` wins; its value is `decodeURIComponent`-ed (`Except.error`
models the `URIError` propagating out of `getCookie`). -/
def getCookieLoop (nameEQ : List Char) : List (List Char) → Except Unit (Option String)
  | [] => .ok none
  | seg :: rest =>
    let seg' := trimSp seg
    if nameEQ.isPrefixOf seg' then
      match decodeURIComponent ⟨seg'.drop nameEQ.length⟩ with
      | some s => .ok (some s)
      | none => .error ()
    else getCookieLoop nameEQ rest

/-- `getCookie` (lines 348-367) over the rendered `document.cookie` string. -/
def getCookie (name : String) (jarStr : String) : Except Unit (Option String) :=
  getCookieLoop (name.data ++ ['=']) (splitSemis jarStr.data)

/-! ### The storage environment and the hook's operations. -/

/-- Backend kind (`storageType`). -/
inductive StorageType : Type where
  | localStorage : StorageType
  | sessionStorage : StorageType
  | cookie : StorageType
deriving DecidableEq

/-- Association-map primitives for the two Web Storage areas. -/
def mapErase (k : String) (m : List (String × String)) : List (String × String) :=
  m.filter (fun p => p.1 != k)

def mapInsert (k v : String) (m : List (String × String)) : List (String × String) :=
  mapErase k m ++ [(k, v)]

def mapLookup (k : String) (m : List (String × String)) : Option String :=
  (m.find? (fun p => p.1 == k)).map Prod.snd

/-- The browser environment: the two Web Storage maps, the cookie jar, the
clock, and a fault flag making backend writes throw (quota exceeded /
access denied). -/
structure Env where
  localMap : List (String × String)
  sessionMap : List (String × String)
  jar : List (String × String)
  now : Int
  failWrite : Bool
deriving DecidableEq

/-- `read(backend, key)`: `getItem` / `getCookie`. -/
def readRaw (t : StorageType) (env : Env) (key : String) : Except Unit (Option String) :=
  match t with
  | .localStorage => .ok (mapLookup key env.localMap)
  | .sessionStorage => .ok (mapLookup key env.sessionMap)
  | .cookie => getCookie key ⟨renderJarChars env.jar⟩

/-- One hook instance's reactive state: key, backend, cookie options, the
caller-visible typed value and the last-observed raw value
(`lastValueRef.current`). -/
structure Binding where
  key : String
  storageType : StorageType
  cookieOptions : CookieOpts
  value : JVal
  lastValue : Option String
deriving DecidableEq

/-- The body of `setValue` inside its `try` (lines 157-191): remove when the
new value is `null`, else serialize and write, then advance
`lastValueRef.current`, update the React state and fire `onChange`.
Throws (`Except.error`) when the backend write throws. -/
def setValueBody (b : Binding) (env : Env) (newValue : JVal) :
    Except Unit (Binding × Env × List JVal) :=
  if newValue = .null then
    let env' :=
      match b.storageType with
      | .cookie =>
        { env with jar := hostSetCookie env.jar (removeCookieString b.key b.cookieOptions) }
      | .localStorage => { env with localMap := mapErase b.key env.localMap }
      | .sessionStorage => { env with sessionMap := mapErase b.key env.sessionMap }
    .ok ({ b with lastValue := none, value := .null }, env', [JVal.null])
  else
    let sv := encode newValue
    match b.storageType with
    | .cookie =>
      if env.failWrite then .error ()
      else
        .ok ({ b with lastValue := some sv, value := newValue },
          { env with jar :=
            hostSetCookie env.jar (setCookieString b.key sv b.cookieOptions env.now) },
          [newValue])
    | .localStorage =>
      if env.failWrite then .error ()
      else
        .ok ({ b with lastValue := some sv, value := newValue },
          { env with localMap := mapInsert b.key sv env.localMap }, [newValue])
    | .sessionStorage =>
      if env.failWrite then .error ()
      else
        .ok ({ b with lastValue := some sv, value := newValue },
          { env with sessionMap := mapInsert b.key sv env.sessionMap }, [newValue])

/-- `setValue` (lines 151-197): the `try` body with its `catch` that only
emits a `console.warn` — no exception crosses the public interface.  Returns
the new binding, the new environment, the `onChange` notifications and the
number of warnings emitted. -/
def setValue (b : Binding) (env : Env) (newValue : JVal) :
    Binding × Env × List JVal × Nat :=
  match setValueBody b env newValue with
  | .ok (b', env', notifs) => (b', env', notifs, 0)
  | .error _ => (b, env, [], 1)

/-- The change-check closure (lines 275-310): re-read the raw value, and only
when it differs from the last-observed raw value, advance the bookkeeping,
decode and notify.  Errors are swallowed (`catch { /* silently fail */ }`). -/
def checkValue (b : Binding) (env : Env) : Binding × List JVal :=
  match readRaw b.storageType env b.key with
  | .error _ => (b, [])
  | .ok raw =>
    if raw = b.lastValue then (b, [])
    else
      let currentValue :=
        match raw with
        | none => JVal.null
        | some s => decode s
      ({ b with lastValue := raw, value := currentValue }, [currentValue])

/-- The `useState` initializer (lines 104-136): read the raw value; absent
(or a read error) yields `defaultValue ?? null`; otherwise JSON-parse first
and fall back to the raw string. -/
def initValue (t : StorageType) (env : Env) (key : String) (dflt : JVal) : JVal :=
  match readRaw t env key with
  | .error _ => dflt
  | .ok none => dflt
  | .ok (some raw) => decode raw

/-- `hasValue` (line 224): `value !== null`. -/
def hasValueOf (v : JVal) : Bool := v != JVal.null

/-- `clear` (lines 205-221): clears the whole Web Storage area for
`localStorage` / `sessionStorage` (a failing backend makes it throw, which
is caught and warned about); for cookies nothing at all happens — no write,
no diagnostic.  Returns the environment and the number of warnings. -/
def clearOp (t : StorageType) (env : Env) : Env × Nat :=
  match t with
  | .localStorage =>
    if env.failWrite then (env, 1) else ({ env with localMap := [] }, 0)
  | .sessionStorage =>
    if env.failWrite then (env, 1) else ({ env with sessionMap := [] }, 0)
  | .cookie => (env, 0)

/-! ### Cookie-string segmentation lemmas. -/

theorem splitSemis_no_semi {l : List Char} (h : ';' ∉ l) : splitSemis l = [l] := by
  induction l with
  | nil => rfl
  | cons c cs ih =>
    have hc : c ≠ ';' := fun he => h (he ▸ List.mem_cons_self c cs)
    have hcs : ';' ∉ cs := fun hm => h (List.mem_cons_of_mem c hm)
    simp only [splitSemis, if_neg hc, ih hcs]

theorem splitSemis_append {a : List Char} (h : ';' ∉ a) (rest : List Char) :
    splitSemis (a ++ ';' :: rest) = a :: splitSemis rest := by
  induction a with
  | nil => simp [splitSemis]
  | cons c cs ih =>
    have hc : c ≠ ';' := fun he => h (he ▸ List.mem_cons_self c cs)
    have hcs : ';' ∉ cs := fun hm => h (List.mem_cons_of_mem c hm)
    simp only [List.cons_append, splitSemis, if_neg hc, List.append_eq]
    rw [ih hcs]

theorem trimSp_eq_self {l : List Char} (h : l.head? ≠ some ' ') : trimSp l = l := by
  cases l with
  | nil => rfl
  | cons c cs =>
    have hc : c ≠ ' ' := by
      intro he
      exact h (by rw [he]; rfl)
    simp [trimSp, hc]

theorem trimSp_space (l : List Char) : trimSp (' ' :: l) = trimSp l := by
  simp [trimSp]

/-- The shape of every cookie string this code ever builds: a first segment
followed by `"; "`-prefixed attribute segments. -/
def joinSegs (first : List Char) (rest : List (List Char)) : List Char :=
  first ++ rest.flatMap (fun seg => ';' :: ' ' :: seg)

/-- Splitting on `;` and trimming recovers the segments of a join, provided
no segment contains `;` or starts with a space. -/
theorem cookieSegs_joinSegs : ∀ (rest : List (List Char)) (first : List Char),
    ';' ∉ first → first.head? ≠ some ' ' →
    (∀ seg ∈ rest, ';' ∉ seg ∧ seg.head? ≠ some ' ') →
    (splitSemis (joinSegs first rest)).map trimSp = first :: rest := by
  intro rest
  induction rest with
  | nil =>
    intro first h1 hh _
    simp only [joinSegs, List.flatMap_nil, List.append_nil]
    rw [splitSemis_no_semi h1]
    simp [trimSp_eq_self hh]
  | cons seg rest' ih =>
    intro first h1 hh h2
    have hseg := h2 seg (List.mem_cons_self seg rest')
    have hrest : ∀ s ∈ rest', ';' ∉ s ∧ s.head? ≠ some ' ' :=
      fun s hs => h2 s (List.mem_cons_of_mem seg hs)
    have hjoin : joinSegs first (seg :: rest') =
        first ++ ';' :: (' ' :: joinSegs seg rest') := by
      simp [joinSegs]
    rw [hjoin, splitSemis_append h1]
    have htail := ih seg hseg.1 hseg.2 hrest
    cases hsp : splitSemis (joinSegs seg rest') with
    | nil => rw [hsp] at htail; cases htail
    | cons h t =>
      rw [hsp] at htail
      have : splitSemis (' ' :: joinSegs seg rest') = (' ' :: h) :: t := by
        simp only [splitSemis, if_neg (by decide : ¬(' ' = ';')), hsp]
      rw [this]
      simp only [List.map_cons] at htail ⊢
      rw [trimSp_eq_self hh, trimSp_space]
      rw [htail]

theorem takeWhile_name {a : List Char} (h : '=' ∉ a) (b : List Char) :
    (a ++ '=' :: b).takeWhile (fun c => c ≠ '=') = a ∧
      (a ++ '=' :: b).dropWhile (fun c => c ≠ '=') = '=' :: b := by
  induction a with
  | nil => simp [List.takeWhile, List.dropWhile]
  | cons c cs ih =>
    have hc : c ≠ '=' := fun he => h (he ▸ List.mem_cons_self c cs)
    have hcs : '=' ∉ cs := fun hm => h (List.mem_cons_of_mem c hm)
    obtain ⟨ih1, ih2⟩ := ih hcs
    constructor
    · simp only [List.cons_append, List.takeWhile_cons]
      rw [if_pos (by simp [hc]), ih1]
    · simp only [List.cons_append, List.dropWhile_cons]
      rw [if_pos (by simp [hc]), ih2]

theorem isPrefixOf_false_of_head {a b : Char} (h : a ≠ b) (as bs : List Char) :
    (a :: as).isPrefixOf (b :: bs) = false := by
  simp [List.isPrefixOf, h]

/-- `key=` is a prefix of `n=v` exactly when `key = n`, for `=`-free names. -/
theorem keyEq_prefix_iff : ∀ {key n : List Char}, '=' ∉ key → '=' ∉ n →
    ∀ (v : List Char), ((key ++ ['=']).isPrefixOf (n ++ '=' :: v) = true) ↔ key = n := by
  intro key
  induction key with
  | nil =>
    intro n hk hn v
    cases n with
    | nil => simp [List.isPrefixOf]
    | cons c n' =>
      have hc : c ≠ '=' := fun he => hn (he ▸ List.mem_cons_self c n')
      simp only [List.nil_append, List.cons_append, List.isPrefixOf]
      constructor
      · intro hx
        exfalso
        simp only [Bool.and_eq_true, beq_iff_eq] at hx
        exact hc hx.1.symm
      · intro hx
        cases hx
  | cons k key' ih =>
    intro n hk hn v
    have hkk : k ≠ '=' := fun he => hk (he ▸ List.mem_cons_self k key')
    have hkey' : '=' ∉ key' := fun hm => hk (List.mem_cons_of_mem k hm)
    cases n with
    | nil =>
      simp only [List.cons_append, List.nil_append, List.isPrefixOf]
      constructor
      · intro hx
        exfalso
        simp only [Bool.and_eq_true, beq_iff_eq] at hx
        exact hkk hx.1
      · intro hx
        cases hx
    | cons c n' =>
      have hn' : '=' ∉ n' := fun hm => hn (List.mem_cons_of_mem c hm)
      simp only [List.cons_append, List.isPrefixOf, Bool.and_eq_true, beq_iff_eq]
      constructor
      · rintro ⟨rfl, hx⟩
        rw [(ih hkey' hn' v).mp hx]
      · rintro hx
        cases hx
        exact ⟨rfl, (ih hkey' hn' v).mpr rfl⟩

/-- The attribute segments `setCookie` appends after `name=value`, in order:
expiration (per the policy), path, optional domain, optional `secure`,
`SameSite`. -/
def cookieAttrSegs (opts : CookieOpts) (now : Int) : List (List Char) :=
  (match opts.expires with
   | some e =>
     if e ≠ 0 then [("expires=" : String).data ++ toUTCChars (now + e * 86400000)] else []
   | none => [("expires=" : String).data ++ toUTCChars (now + 365 * 86400000)]) ++
  [("path=" : String).data ++ (opts.path.getD "/").data] ++
  (match opts.domain with
   | some dm => if dm.isEmpty then [] else [("domain=" : String).data ++ dm.data]
   | none => []) ++
  (if opts.secure.getD false then [("secure" : String).data] else []) ++
  [("SameSite=" : String).data ++ (opts.sameSite.getD "Lax").data]

theorem setCookieString_data (name value : String) (opts : CookieOpts) (now : Int) :
    (setCookieString name value opts now).data =
      joinSegs (name.data ++ '=' :: (encodeURIComponent value).data)
        (cookieAttrSegs opts now) := by
  obtain ⟨e, p, dmo, sec, ss⟩ := opts
  have h1 : ("=" : String).data = ['='] := rfl
  have h2 : ("; expires=" : String).data = ';' :: ' ' :: ("expires=" : String).data := rfl
  have h3 : ("; path=" : String).data = ';' :: ' ' :: ("path=" : String).data := rfl
  have h4 : ("; domain=" : String).data = ';' :: ' ' :: ("domain=" : String).data := rfl
  have h5 : ("; secure" : String).data = ';' :: ' ' :: ("secure" : String).data := rfl
  have h6 : ("; SameSite=" : String).data = ';' :: ' ' :: ("SameSite=" : String).data := rfl
  have h7 : ∀ t : Int, (toUTCString t).data = toUTCChars t := fun _ => rfl
  rcases e with _ | e <;> rcases dmo with _ | dmv <;> rcases sec with _ | b <;>
    simp only [setCookieString, cookieAttrSegs, joinSegs, Option.getD] <;>
    split_ifs <;>
    simp_all [String.data_append, List.flatMap_cons, List.flatMap_nil,
      List.append_nil, List.append_assoc, List.cons_append]

/-- The attribute segments of the `removeCookie` string. -/
def removeAttrSegs (opts : CookieOpts) : List (List Char) :=
  [epochExpires, ("path=" : String).data ++ (opts.path.getD "/").data] ++
  (match opts.domain with
   | some dm => if dm.isEmpty then [] else [("domain=" : String).data ++ dm.data]
   | none => [])

theorem removeCookieString_data (name : String) (opts : CookieOpts) :
    (removeCookieString name opts).data =
      joinSegs (name.data ++ ['=']) (removeAttrSegs opts) := by
  obtain ⟨e, p, dmo, sec, ss⟩ := opts
  have h4 : ("; domain=" : String).data = ';' :: ' ' :: ("domain=" : String).data := rfl
  have h8 : ("=; expires=Thu, 01 Jan 1970 00:00:00 UTC; path=" : String).data =
      '=' :: ';' :: ' ' :: (epochExpires ++ ';' :: ' ' :: ("path=" : String).data) := rfl
  rcases dmo with _ | dmv <;>
    simp only [removeCookieString, removeAttrSegs, joinSegs, Option.getD] <;>
    (try split_ifs) <;>
    simp_all [String.data_append, List.flatMap_cons, List.flatMap_nil,
      List.append_nil, List.append_assoc, List.cons_append]

/-! ### No stray `;` inside the produced segments. -/

theorem digitChar_ne_semi {d : Nat} (h : d < 10) : digitChar d ≠ ';' := by
  intro he
  have h1 : (digitChar d).toNat = 48 + d := digitChar_toNat h
  rw [he] at h1
  have h2 : (';').toNat = 59 := rfl
  omega

theorem semi_not_mem_pad2 (n : Nat) : ';' ∉ pad2 n := by
  intro hm
  simp only [pad2, List.mem_cons, List.not_mem_nil, or_false] at hm
  rcases hm with h | h
  · exact digitChar_ne_semi (by omega) h.symm
  · exact digitChar_ne_semi (by omega) h.symm

theorem semi_not_mem_pad4 (n : Nat) : ';' ∉ pad4 n := by
  intro hm
  simp only [pad4, List.mem_cons, List.not_mem_nil, or_false] at hm
  rcases hm with h | h | h | h <;> exact digitChar_ne_semi (by omega) h.symm

theorem semi_not_mem_dayName (n : Nat) : ';' ∉ dayName n := by
  rcases n with _ | _ | _ | _ | _ | _ | _ | m
  · decide
  · decide
  · decide
  · decide
  · decide
  · decide
  · decide
  · show ';' ∉ (['S', 'a', 't'] : List Char)
    decide

theorem semi_not_mem_monthName (n : Nat) : ';' ∉ monthName n := by
  rcases n with _ | _ | _ | _ | _ | _ | _ | _ | _ | _ | _ | _ | _ | m
  · decide
  · decide
  · decide
  · decide
  · decide
  · decide
  · decide
  · decide
  · decide
  · decide
  · decide
  · decide
  · decide
  · show ';' ∉ (['D', 'e', 'c'] : List Char)
    decide

theorem semi_not_mem_toUTCChars (ms : Int) : ';' ∉ toUTCChars ms := by
  intro hm
  unfold toUTCChars at hm
  simp only [List.mem_append] at hm
  rcases hm with ((((((((((((hm | hm) | hm) | hm) | hm) | hm) | hm) | hm) | hm) | hm) |
      hm) | hm) | hm) | hm
  · exact semi_not_mem_dayName _ hm
  · exact absurd hm (by decide)
  · exact semi_not_mem_pad2 _ hm
  · exact absurd hm (by decide)
  · exact semi_not_mem_monthName _ hm
  · exact absurd hm (by decide)
  · exact semi_not_mem_pad4 _ hm
  · exact absurd hm (by decide)
  · exact semi_not_mem_pad2 _ hm
  · exact absurd hm (by decide)
  · exact semi_not_mem_pad2 _ hm
  · exact absurd hm (by decide)
  · exact semi_not_mem_pad2 _ hm
  · exact absurd hm (by decide)

theorem hexCharUpper_ne_semi {d : Nat} (h : d < 16) : hexCharUpper d ≠ ';' := by
  have hb : ∀ e, e < 16 → hexCharUpper e ≠ ';' := by decide
  exact hb d h

theorem utf8Bytes_lt {n : Nat} (hn : n < 1114112) : ∀ b ∈ utf8Bytes n, b < 256 := by
  intro b hb
  unfold utf8Bytes at hb
  split_ifs at hb <;> simp only [List.mem_cons, List.not_mem_nil, or_false] at hb
  · omega
  · rcases hb with rfl | rfl <;> omega
  · rcases hb with rfl | rfl | rfl <;> omega
  · rcases hb with rfl | rfl | rfl | rfl <;> omega

theorem semi_not_mem_encChar (c : Char) : ';' ∉ encChar c := by
  intro hm
  unfold encChar at hm
  split_ifs at hm with hu
  · simp only [List.mem_singleton] at hm
    rw [← hm] at hu
    exact absurd hu (by decide)
  · rw [List.mem_flatMap] at hm
    obtain ⟨b, hb, hmem⟩ := hm
    have hb256 : b < 256 := utf8Bytes_lt
      (by rcases char_toNat_valid c with h | h <;> omega) b hb
    simp only [pctByte, List.mem_cons, List.not_mem_nil, or_false] at hmem
    rcases hmem with h | h | h
    · exact absurd h.symm (by decide)
    · exact hexCharUpper_ne_semi (by omega) h.symm
    · exact hexCharUpper_ne_semi (by omega) h.symm

theorem semi_not_mem_encode (s : String) : ';' ∉ (encodeURIComponent s).data := by
  intro hm
  rw [show (encodeURIComponent s).data = s.data.flatMap encChar from rfl,
    List.mem_flatMap] at hm
  obtain ⟨c, _, hc⟩ := hm
  exact semi_not_mem_encChar c hc

/-! ### Well-formedness for cookie keys, options and jars. -/

/-- A usable cookie name: nonempty, and free of the delimiter characters the
cookie wire format reserves (`;`, `=`, space). -/
def keyWf (k : String) : Prop :=
  k.data ≠ [] ∧ ';' ∉ k.data ∧ '=' ∉ k.data ∧ ' ' ∉ k.data

instance (k : String) : Decidable (keyWf k) := by
  unfold keyWf
  infer_instance

/-- The optional domain, when present, is `;`-free. -/
def domWf : Option String → Prop
  | some dm => ';' ∉ dm.data
  | none => True

instance : (o : Option String) → Decidable (domWf o)
  | some _ => by unfold domWf; infer_instance
  | none => by unfold domWf; infer_instance

/-- Caller-supplied cookie attributes are `;`-free. -/
def cookieOptsWf (o : CookieOpts) : Prop :=
  ';' ∉ (o.path.getD "/").data ∧ domWf o.domain ∧ ';' ∉ (o.sameSite.getD "Lax").data

instance (o : CookieOpts) : Decidable (cookieOptsWf o) := by
  unfold cookieOptsWf
  infer_instance

/-- A well-formed host cookie jar: usable names, `;`-free stored values. -/
def jarWf (jar : List (String × String)) : Prop :=
  ∀ p ∈ jar, keyWf p.1 ∧ ';' ∉ p.2.data

instance (jar : List (String × String)) : Decidable (jarWf jar) := by
  unfold jarWf keyWf
  infer_instance

theorem toUTCChars_getLast (t : Int) : (toUTCChars t).getLast? = some 'T' := by
  unfold toUTCChars
  rw [List.getLast?_append_of_ne_nil _ (by decide : ([' ', 'G', 'M', 'T'] : List Char) ≠ [])]
  decide

/-- Every attribute segment is one of the five shapes `setCookie` appends. -/
theorem mem_cookieAttrSegs {seg : List Char} {opts : CookieOpts} {now : Int}
    (h : seg ∈ cookieAttrSegs opts now) :
    (∃ t, seg = ("expires=" : String).data ++ toUTCChars t) ∨
    seg = ("path=" : String).data ++ (opts.path.getD "/").data ∨
    (∃ dm, opts.domain = some dm ∧ seg = ("domain=" : String).data ++ dm.data) ∨
    seg = ("secure" : String).data ∨
    seg = ("SameSite=" : String).data ++ (opts.sameSite.getD "Lax").data := by
  unfold cookieAttrSegs at h
  rcases List.mem_append.mp h with h | h
  · rcases List.mem_append.mp h with h | h
    · rcases List.mem_append.mp h with h | h
      · rcases List.mem_append.mp h with h | h
        · left
          rcases hexp : opts.expires with _ | e
          · simp only [hexp] at h
            exact ⟨_, List.mem_singleton.mp h⟩
          · simp only [hexp] at h
            split_ifs at h
            · exact ⟨_, List.mem_singleton.mp h⟩
            · cases h
        · right
          left
          exact List.mem_singleton.mp h
      · right
        right
        left
        rcases hdomo : opts.domain with _ | dm
        · simp only [hdomo] at h
          cases h
        · simp only [hdomo] at h
          split_ifs at h
          · cases h
          · exact ⟨dm, rfl, List.mem_singleton.mp h⟩
    · right
      right
      right
      left
      split_ifs at h
      · exact List.mem_singleton.mp h
      · cases h
  · right
    right
    right
    right
    exact List.mem_singleton.mp h

/-- Attribute segments are `;`-free, do not start with a space, and none of
them is the epoch-expiry literal of `removeCookie`. -/
theorem cookieAttrSegs_wf {opts : CookieOpts} {now : Int} (ho : cookieOptsWf opts) :
    ∀ seg ∈ cookieAttrSegs opts now,
      (';' ∉ seg ∧ seg.head? ≠ some ' ') ∧ seg ≠ epochExpires := by
  obtain ⟨hp, hdm, hss⟩ := ho
  intro seg hseg
  rcases mem_cookieAttrSegs hseg with ⟨t, rfl⟩ | rfl | ⟨dm, hdme, rfl⟩ | rfl | rfl
  · refine ⟨⟨?_, ?_⟩, ?_⟩
    · intro hm
      rcases List.mem_append.mp hm with hm | hm
      · exact absurd hm (by decide)
      · exact semi_not_mem_toUTCChars t hm
    · intro hh
      rw [show ("expires=" : String).data = 'e' :: ("xpires=" : String).data from rfl,
        List.cons_append] at hh
      cases hh
    · intro he
      have h1 := congrArg List.getLast? he
      rw [List.getLast?_append_of_ne_nil _ (by
          unfold toUTCChars
          simp : toUTCChars t ≠ []), toUTCChars_getLast] at h1
      have h2 : epochExpires.getLast? = some 'C' := by decide
      rw [h2] at h1
      cases h1
  · refine ⟨⟨?_, ?_⟩, ?_⟩
    · intro hm
      rcases List.mem_append.mp hm with hm | hm
      · exact absurd hm (by decide)
      · exact hp hm
    · intro hh
      rw [show ("path=" : String).data = 'p' :: ("ath=" : String).data from rfl,
        List.cons_append] at hh
      cases hh
    · intro he
      have h1 := congrArg List.head? he
      rw [show ("path=" : String).data = 'p' :: ("ath=" : String).data from rfl,
        List.cons_append] at h1
      have h2 : epochExpires.head? = some 'e' := by decide
      rw [h2] at h1
      cases h1
  · have hdm' : ';' ∉ dm.data := by
      rw [hdme] at hdm
      exact hdm
    refine ⟨⟨?_, ?_⟩, ?_⟩
    · intro hm
      rcases List.mem_append.mp hm with hm | hm
      · exact absurd hm (by decide)
      · exact hdm' hm
    · intro hh
      rw [show ("domain=" : String).data = 'd' :: ("omain=" : String).data from rfl,
        List.cons_append] at hh
      cases hh
    · intro he
      have h1 := congrArg List.head? he
      rw [show ("domain=" : String).data = 'd' :: ("omain=" : String).data from rfl,
        List.cons_append] at h1
      have h2 : epochExpires.head? = some 'e' := by decide
      rw [h2] at h1
      cases h1
  · exact ⟨⟨by decide, by decide⟩, by decide⟩
  · refine ⟨⟨?_, ?_⟩, ?_⟩
    · intro hm
      rcases List.mem_append.mp hm with hm | hm
      · exact absurd hm (by decide)
      · exact hss hm
    · intro hh
      rw [show ("SameSite=" : String).data = 'S' :: ("ameSite=" : String).data from rfl,
        List.cons_append] at hh
      cases hh
    · intro he
      have h1 := congrArg List.head? he
      rw [show ("SameSite=" : String).data = 'S' :: ("ameSite=" : String).data from rfl,
        List.cons_append] at h1
      have h2 : epochExpires.head? = some 'e' := by decide
      rw [h2] at h1
      cases h1

/-- The first segment `name=encodedValue` is `;`-free and does not start with
a space. -/
theorem firstSeg_wf {name : String} (hk : keyWf name) (enc : List Char)
    (henc : ';' ∉ enc) :
    ';' ∉ (name.data ++ '=' :: enc) ∧ (name.data ++ '=' :: enc).head? ≠ some ' ' := by
  obtain ⟨hne, hsemi, _, hsp⟩ := hk
  constructor
  · intro hm
    rcases List.mem_append.mp hm with hm | hm
    · exact hsemi hm
    · rcases List.mem_cons.mp hm with hm | hm
      · cases hm
      · exact henc hm
  · cases hd : name.data with
    | nil => exact absurd hd hne
    | cons c cs =>
      have hc : c ≠ ' ' := by
        intro he
        exact hsp (by rw [hd, he]; exact List.mem_cons_self _ _)
      intro hh
      exact hc (Option.some.inj hh)

/-- Segmentation of the string `setCookie` assigns. -/
theorem cookieSegs_setCookieString (name value : String) (opts : CookieOpts) (now : Int)
    (hk : keyWf name) (ho : cookieOptsWf opts) :
    cookieSegs (setCookieString name value opts now) =
      (name.data ++ '=' :: (encodeURIComponent value).data) :: cookieAttrSegs opts now := by
  unfold cookieSegs
  rw [setCookieString_data]
  obtain ⟨h1, h2⟩ := firstSeg_wf hk _ (semi_not_mem_encode value)
  exact cookieSegs_joinSegs _ _ h1 h2
    (fun seg hs => (cookieAttrSegs_wf ho seg hs).1)

/-- Segmentation of the string `removeCookie` assigns. -/
theorem cookieSegs_removeCookieString (name : String) (opts : CookieOpts)
    (hk : keyWf name) (ho : cookieOptsWf opts) :
    cookieSegs (removeCookieString name opts) =
      (name.data ++ ['=']) :: removeAttrSegs opts := by
  unfold cookieSegs
  rw [removeCookieString_data]
  obtain ⟨h1, h2⟩ := firstSeg_wf hk [] (by simp)
  rw [show name.data ++ '=' :: ([] : List Char) = name.data ++ ['='] from rfl] at h1 h2
  refine cookieSegs_joinSegs _ _ h1 h2 ?_
  intro seg hs
  unfold removeAttrSegs at hs
  obtain ⟨hp, hdm, _⟩ := ho
  rcases List.mem_append.mp hs with hs | hs
  · rcases List.mem_cons.mp hs with rfl | hs
    · exact ⟨by decide, by decide⟩
    · rcases List.mem_singleton.mp hs with rfl
      constructor
      · intro hm
        rcases List.mem_append.mp hm with hm | hm
        · exact absurd hm (by decide)
        · exact hp hm
      · intro hh
        rw [show ("path=" : String).data = 'p' :: ("ath=" : String).data from rfl,
          List.cons_append] at hh
        cases hh
  · rcases hdomo : opts.domain with _ | dm
    · simp only [hdomo] at hs
      cases hs
    · simp only [hdomo] at hs
      have hdm' : ';' ∉ dm.data := by
        rw [hdomo] at hdm
        exact hdm
      split_ifs at hs
      · cases hs
      · rcases List.mem_singleton.mp hs with rfl
        constructor
        · intro hm
          rcases List.mem_append.mp hm with hm | hm
          · exact absurd hm (by decide)
          · exact hdm' hm
        · intro hh
          exact absurd (Option.some.inj hh) (by decide)

/-- Assigning the string `setCookie` builds stores the percent-encoded value
under the name. -/
theorem hostSetCookie_set (jar : List (String × String)) (name value : String)
    (opts : CookieOpts) (now : Int) (hk : keyWf name) (ho : cookieOptsWf opts) :
    hostSetCookie jar (setCookieString name value opts now) =
      jarErase name jar ++ [(name, encodeURIComponent value)] := by
  unfold hostSetCookie
  rw [cookieSegs_setCookieString name value opts now hk ho]
  obtain ⟨tw, dw⟩ := takeWhile_name hk.2.2.1 (encodeURIComponent value).data
  have hcont : (cookieAttrSegs opts now).contains epochExpires = false := by
    have hmem : epochExpires ∉ cookieAttrSegs opts now :=
      fun hm => (cookieAttrSegs_wf ho _ hm).2 rfl
    simpa using hmem
  simp only [tw, dw, hcont]
  rfl

/-- Assigning the string `removeCookie` builds deletes the name from the
jar (its `expires` attribute is the past-date literal). -/
theorem hostSetCookie_remove (jar : List (String × String)) (name : String)
    (opts : CookieOpts) (hk : keyWf name) (ho : cookieOptsWf opts) :
    hostSetCookie jar (removeCookieString name opts) = jarErase name jar := by
  unfold hostSetCookie
  rw [cookieSegs_removeCookieString name opts hk ho]
  obtain ⟨tw, _⟩ := takeWhile_name hk.2.2.1 ([] : List Char)
  have hcont : (removeAttrSegs opts).contains epochExpires = true := by
    have hmem : epochExpires ∈ removeAttrSegs opts := by
      unfold removeAttrSegs
      exact List.mem_append_left _ (List.mem_cons_self _ _)
    simpa using hmem
  rw [show name.data ++ ['='] = name.data ++ '=' :: ([] : List Char) from rfl]
  simp only [tw, hcont]
  rfl

theorem splitSemis_ne_nil (l : List Char) : splitSemis l ≠ [] := by
  cases l with
  | nil => simp [splitSemis]
  | cons c cs =>
    unfold splitSemis
    split_ifs
    · simp
    · cases splitSemis cs <;> simp

theorem getCookieLoop_cons_space (ne : List Char) (h : List Char)
    (t : List (List Char)) :
    getCookieLoop ne ((' ' :: h) :: t) = getCookieLoop ne (h :: t) := by
  simp only [getCookieLoop, trimSp_space]

/-- Reading a well-formed jar through `getCookie` is association-list lookup
composed with percent-decoding. -/
theorem getCookie_renderJar (key : String) (hkey : keyWf key) :
    ∀ (jar : List (String × String)), jarWf jar →
    getCookie key ⟨renderJarChars jar⟩ =
      (match mapLookup key jar with
       | some enc =>
         match decodeURIComponent enc with
         | some s => Except.ok (some s)
         | none => Except.error ()
       | none => Except.ok none) := by
  have hkeq : '=' ∉ key.data := hkey.2.2.1
  intro jar
  induction jar with
  | nil =>
    intro _
    show getCookieLoop (key.data ++ ['=']) (splitSemis []) = Except.ok none
    cases hkd : key.data with
    | nil => simp [splitSemis, getCookieLoop, trimSp, List.isPrefixOf]
    | cons c cs => simp [splitSemis, getCookieLoop, trimSp, List.isPrefixOf]
  | cons p jar' ih =>
    intro hw
    obtain ⟨n, v⟩ := p
    obtain ⟨hnwf, hvsemi⟩ := hw (n, v) (List.mem_cons_self _ _)
    have hw' : jarWf jar' := fun q hq => hw q (List.mem_cons_of_mem _ hq)
    have hfirst := firstSeg_wf hnwf v.data hvsemi
    have hlookup : mapLookup key ((n, v) :: jar') =
        if n = key then some v else mapLookup key jar' := by
      unfold mapLookup
      rw [List.find?]
      by_cases hnk : n = key
      · rw [if_pos hnk, show (((n, v).1 == key) : Bool) = true from by
          simp [hnk]]
        rfl
      · rw [if_neg hnk, show (((n, v).1 == key) : Bool) = false from by
          simp [hnk]]
    have hmatch : ∀ (tail : List (List Char)),
        getCookieLoop (key.data ++ ['=']) ((n.data ++ '=' :: v.data) :: tail) =
          if n = key then
            (match decodeURIComponent v with
             | some s => Except.ok (some s)
             | none => Except.error ())
          else getCookieLoop (key.data ++ ['=']) tail := by
      intro tail
      rw [getCookieLoop]
      rw [trimSp_eq_self hfirst.2]
      by_cases hnk : n = key
      · rw [if_pos ((keyEq_prefix_iff hkeq (hnwf.2.2.1) v.data).mpr
          (by rw [hnk])), if_pos hnk]
        have hdrop : (n.data ++ '=' :: v.data).drop (key.data ++ ['=']).length
            = v.data := by
          rw [show n.data ++ '=' :: v.data = (n.data ++ ['=']) ++ v.data from by simp,
            ← hnk, List.drop_left]
        rw [hdrop]
      · rw [if_neg (by
          rw [show ¬((key.data ++ ['=']).isPrefixOf (n.data ++ '=' :: v.data) = true) ↔
            ((key.data ++ ['=']).isPrefixOf (n.data ++ '=' :: v.data) = true → False)
            from Iff.rfl]
          intro hc
          exact hnk (String.ext ((keyEq_prefix_iff hkeq hnwf.2.2.1 v.data).mp hc).symm)),
          if_neg hnk]
    cases jar' with
    | nil =>
      show getCookieLoop (key.data ++ ['=']) (splitSemis (n.data ++ '=' :: v.data)) = _
      rw [splitSemis_no_semi hfirst.1, hmatch, hlookup]
      by_cases hnk : n = key
      · rw [if_pos hnk, if_pos hnk]
      · rw [if_neg hnk, if_neg hnk]
        show Except.ok none = _
        unfold mapLookup
        simp
    | cons q jar'' =>
      have hsh : renderJarChars ((n, v) :: q :: jar'') =
          (n.data ++ '=' :: v.data) ++ ';' :: (' ' :: renderJarChars (q :: jar'')) := by
        show n.data ++ '=' :: v.data ++ ';' :: ' ' :: renderJarChars (q :: jar'') = _
        simp
      show getCookieLoop (key.data ++ ['='])
        (splitSemis (renderJarChars ((n, v) :: q :: jar''))) = _
      rw [hsh, splitSemis_append hfirst.1]
      cases hsp : splitSemis (renderJarChars (q :: jar'')) with
      | nil => exact absurd hsp (splitSemis_ne_nil _)
      | cons h t =>
        have hspace : splitSemis (' ' :: renderJarChars (q :: jar'')) = (' ' :: h) :: t := by
          simp only [splitSemis, if_neg (by decide : ¬(' ' = ';')), hsp]
        rw [hspace, hmatch, hlookup]
        by_cases hnk : n = key
        · rw [if_pos hnk, if_pos hnk]
        · rw [if_neg hnk, if_neg hnk, getCookieLoop_cons_space, ← hsp]
          exact ih hw'

theorem pollInv_applyOps (ops : List PollOp) : PollInv (applyOps ops) := by
  suffices h : ∀ (s : PollState), PollInv s → PollInv (ops.foldl applyOp s) from
    h pollInit pollInv_init
  induction ops with
  | nil => exact fun s hs => hs
  | cons op ops ih =>
    intro s hs
    simp only [List.foldl_cons]
    refine ih _ ?_
    cases op with
    | sub cb => exact pollInv_subscribe hs cb
    | unsub cb => exact pollInv_unsubscribe hs cb


/-! ### Association-map lemmas. -/

theorem find_mapErase (k : String) (m : List (String × String)) :
    (mapErase k m).find? (fun p => p.1 == k) = none := by
  induction m with
  | nil => rfl
  | cons p m' ih =>
    show (List.filter _ (p :: m')).find? _ = none
    rw [List.filter]
    cases hp : (p.1 != k) with
    | false => exact ih
    | true =>
      rw [List.find?]
      have hk : (p.1 == k) = false := by
        simpa [bne] using hp
      rw [hk]
      exact ih

theorem mapLookup_insert (k v : String) (m : List (String × String)) :
    mapLookup k (mapInsert k v m) = some v := by
  unfold mapLookup mapInsert
  rw [List.find?_append, find_mapErase]
  simp [List.find?]

theorem mapLookup_erase (k : String) (m : List (String × String)) :
    mapLookup k (mapErase k m) = none := by
  unfold mapLookup
  rw [find_mapErase]
  rfl

theorem jarWf_erase {jar : List (String × String)} (hw : jarWf jar) (name : String) :
    jarWf (jarErase name jar) :=
  fun p hp => hw p (List.mem_of_mem_filter hp)

theorem jarWf_insert {jar : List (String × String)} (hw : jarWf jar)
    {name : String} (hk : keyWf name) (value : String) :
    jarWf (jarErase name jar ++ [(name, encodeURIComponent value)]) := by
  intro p hp
  rcases List.mem_append.mp hp with hl | hr
  · exact hw p (List.mem_of_mem_filter hl)
  · rw [List.mem_singleton] at hr
    subst hr
    exact ⟨hk, semi_not_mem_encode value⟩

/-- After a successful `setValue`, the raw value the backend now reports for
the key is exactly the binding's advanced `lastValueRef.current`, so an
immediate `checkValue` compares equal and performs no decode and no
notification. -/
theorem setValue_sync (b : Binding) (env : Env) (v : JVal)
    (hfail : env.failWrite = false)
    (hck : b.storageType = .cookie →
      keyWf b.key ∧ cookieOptsWf b.cookieOptions ∧ jarWf env.jar) :
    readRaw (setValue b env v).1.storageType (setValue b env v).2.1
        (setValue b env v).1.key = .ok (setValue b env v).1.lastValue ∧
    checkValue (setValue b env v).1 (setValue b env v).2.1 =
      ((setValue b env v).1, []) := by
  have hmain : readRaw (setValue b env v).1.storageType (setValue b env v).2.1
      (setValue b env v).1.key = .ok (setValue b env v).1.lastValue := by
    by_cases hv : v = JVal.null
    · cases hty : b.storageType with
      | localStorage =>
        simp only [setValue, setValueBody, if_pos hv, hty, readRaw]
        rw [mapLookup_erase]
      | sessionStorage =>
        simp only [setValue, setValueBody, if_pos hv, hty, readRaw]
        rw [mapLookup_erase]
      | cookie =>
        obtain ⟨hkk, hoo, hjw⟩ := hck hty
        simp only [setValue, setValueBody, if_pos hv, hty, readRaw]
        rw [hostSetCookie_remove env.jar b.key b.cookieOptions hkk hoo,
          getCookie_renderJar b.key hkk _ (jarWf_erase hjw b.key)]
        have hnone : mapLookup b.key (jarErase b.key env.jar) = none :=
          mapLookup_erase b.key env.jar
        simp only [hnone]
    · cases hty : b.storageType with
      | localStorage =>
        simp only [setValue, setValueBody, if_neg hv, hty, hfail,
          Bool.false_eq_true, if_false, readRaw]
        rw [mapLookup_insert]
      | sessionStorage =>
        simp only [setValue, setValueBody, if_neg hv, hty, hfail,
          Bool.false_eq_true, if_false, readRaw]
        rw [mapLookup_insert]
      | cookie =>
        obtain ⟨hkk, hoo, hjw⟩ := hck hty
        simp only [setValue, setValueBody, if_neg hv, hty, hfail,
          Bool.false_eq_true, if_false, readRaw]
        rw [hostSetCookie_set env.jar b.key (encode v) b.cookieOptions env.now hkk hoo,
          getCookie_renderJar b.key hkk _ (jarWf_insert hjw hkk (encode v)),
          show jarErase b.key env.jar ++ [(b.key, encodeURIComponent (encode v))] =
            mapInsert b.key (encodeURIComponent (encode v)) env.jar from rfl,
          mapLookup_insert]
        simp only [decode_encodeURIComponent]
  refine ⟨hmain, ?_⟩
  simp [checkValue, hmain]

/-! ### The expiration-attribute policy of `setCookie`. -/

/-- The segments of a cookie string carrying an `expires` attribute. -/
def expiresSegs (s : String) : List (List Char) :=
  (cookieSegs s).filter (fun seg => ("expires=" : String).data.isPrefixOf seg)

theorem isPrefixOf_self_append (l t : List Char) : l.isPrefixOf (l ++ t) = true := by
  induction l with
  | nil => simp [List.isPrefixOf]
  | cons c cs ih => simp [List.isPrefixOf, ih]

theorem expPrefix_expSeg (t : List Char) :
    (['e', 'x', 'p', 'i', 'r', 'e', 's', '='] : List Char).isPrefixOf
      ('e' :: 'x' :: 'p' :: 'i' :: 'r' :: 'e' :: 's' :: '=' :: t) = true := by
  simp

theorem not_expPrefix_pathSeg (p : List Char) :
    (['e', 'x', 'p', 'i', 'r', 'e', 's', '='] : List Char).isPrefixOf
      ('p' :: 'a' :: 't' :: 'h' :: '=' :: p) = false :=
  isPrefixOf_false_of_head (by decide) _ _

theorem not_expPrefix_domainSeg (d : List Char) :
    (['e', 'x', 'p', 'i', 'r', 'e', 's', '='] : List Char).isPrefixOf
      ('d' :: 'o' :: 'm' :: 'a' :: 'i' :: 'n' :: '=' :: d) = false :=
  isPrefixOf_false_of_head (by decide) _ _

theorem not_expPrefix_sameSiteSeg (ss : List Char) :
    (['e', 'x', 'p', 'i', 'r', 'e', 's', '='] : List Char).isPrefixOf
      ('S' :: 'a' :: 'm' :: 'e' :: 'S' :: 'i' :: 't' :: 'e' :: '=' :: ss) = false :=
  isPrefixOf_false_of_head (by decide) _ _

theorem not_expPrefix_secureSeg :
    (['e', 'x', 'p', 'i', 'r', 'e', 's', '='] : List Char).isPrefixOf
      (['s', 'e', 'c', 'u', 'r', 'e'] : List Char) = false := by decide

/-- C8: for every cookie write (any name other than the literal `expires`,
which the segment filter cannot tell apart from the attribute), the
expiration attribute of the produced cookie string follows the policy:
caller-specified nonzero days give `now + days*86400000` milliseconds
formatted as an HTTP-date by `toUTCString`; an omitted option defaults to
365 days from now; `expires = 0` omits the attribute entirely (session
cookie). -/
theorem expiresSegs_setCookieString (name value : String) (opts : CookieOpts)
    (now : Int) (hk : keyWf name) (ho : cookieOptsWf opts) (hn : name ≠ "expires") :
    expiresSegs (setCookieString name value opts now) =
      match opts.expires with
      | some e =>
        if e ≠ 0 then [("expires=" : String).data ++ toUTCChars (now + e * 86400000)]
        else []
      | none => [("expires=" : String).data ++ toUTCChars (now + 365 * 86400000)] := by
  unfold expiresSegs
  rw [cookieSegs_setCookieString name value opts now hk ho, List.filter]
  have hfirst : (("expires=" : String).data.isPrefixOf
      (name.data ++ '=' :: (encodeURIComponent value).data)) = false := by
    rw [show ("expires=" : String).data = ("expires" : String).data ++ ['='] from rfl]
    cases hx : (("expires" : String).data ++ ['=']).isPrefixOf
        (name.data ++ '=' :: (encodeURIComponent value).data) with
    | false => rfl
    | true =>
      exact absurd
        (String.ext ((keyEq_prefix_iff (by decide) hk.2.2.1 _).mp hx).symm) hn
  simp only [hfirst]
  obtain ⟨e, p, dmo, sec, ss⟩ := opts
  rcases e with _ | ev <;> rcases dmo with _ | dmv <;> rcases sec with _ | bv <;>
    simp only [cookieAttrSegs, Option.getD] <;> split_ifs <;>
    simp_all [List.filter_append, List.filter, expPrefix_expSeg, not_expPrefix_pathSeg,
      not_expPrefix_domainSeg, not_expPrefix_sameSiteSeg, not_expPrefix_secureSeg]

/-! ### The claims. -/

/-- C1 (amended): for a key whose raw value is absent, the initializer
returns the configured default `d`, but `hasValue` is `d !== null` — with a
non-null default such as the text `"fallback"`, `hasValue()` is `true`, not
`false` as claimed. -/
theorem absent_default_hasValue (t : StorageType) (env : Env) (key : String)
    (dflt : JVal) (habs : readRaw t env key = Except.ok none) :
    initValue t env key dflt = dflt ∧
      hasValueOf (initValue t env key dflt) = (dflt != JVal.null) := by
  have h1 : initValue t env key dflt = dflt := by
    unfold initValue
    rw [habs]
  exact ⟨h1, by rw [h1]; rfl⟩

theorem absent_default_hasValue_cex :
    initValue .localStorage ⟨[], [], [], 0, false⟩ "k" (.str "fallback") =
        .str "fallback" ∧
      hasValueOf (initValue .localStorage ⟨[], [], [], 0, false⟩ "k"
        (.str "fallback")) = true :=
  ⟨rfl, rfl⟩

theorem absent_default_hasValue_w :
    readRaw .localStorage ⟨[], [], [], 0, false⟩ "k" = Except.ok none ∧
      (initValue .localStorage ⟨[], [], [], 0, false⟩ "k" (.str "fallback") =
          .str "fallback" ∧
        hasValueOf (initValue .localStorage ⟨[], [], [], 0, false⟩ "k"
          (.str "fallback")) = ((JVal.str "fallback") != JVal.null)) :=
  ⟨rfl, absent_default_hasValue .localStorage ⟨[], [], [], 0, false⟩ "k"
    (.str "fallback") rfl⟩

/-- C2 (amended): a text value is stored verbatim, and decoding reproduces
it provided the stored text is not itself parseable JSON — the parse-first
decoder otherwise returns the parsed value (see the counterexample
`"42"`). -/
theorem text_passthrough (s : String) (hp : jsonParse s = none) :
    encode (JVal.str s) = s ∧ decode (encode (JVal.str s)) = JVal.str s := by
  refine ⟨rfl, ?_⟩
  show decode s = JVal.str s
  unfold decode
  rw [hp]

theorem text_passthrough_cex :
    encode (JVal.str "42") = "42" ∧
      decode (encode (JVal.str "42")) = JVal.num 42 ∧
      JVal.num 42 ≠ JVal.str "42" :=
  ⟨rfl, by decide, by decide⟩

theorem text_passthrough_w :
    jsonParse "hello" = none ∧
      (encode (JVal.str "hello") = "hello" ∧
        decode (encode (JVal.str "hello")) = JVal.str "hello") :=
  ⟨by decide, text_passthrough "hello" (by decide)⟩

/-- C3: every well-formed typed value of a structured kind (number, boolean,
ordered-list, keyed-map) round-trips through the codec: it is JSON-stringified
on write and the parse-first decoder reproduces it exactly, including nested
structures. -/
theorem structured_roundtrip (v : JVal) (hs : structuredKind v = true)
    (hw : wfV v = true) : decode (encode v) = v := by
  have henc : encode v = jsonStringify v := by
    cases v with
    | str s => exact absurd hs (by simp [structuredKind])
    | num n => rfl
    | jbool b => rfl
    | null => rfl
    | arr l => rfl
    | obj l => rfl
  rw [henc]
  unfold decode
  rw [jsonParse_stringify]

theorem structured_roundtrip_w :
    structuredKind (JVal.obj (JObj.cons "a" (JVal.arr (JArr.cons (JVal.num 1)
        (JArr.cons (JVal.jbool true) JArr.nil))) JObj.nil)) = true ∧
      wfV (JVal.obj (JObj.cons "a" (JVal.arr (JArr.cons (JVal.num 1)
        (JArr.cons (JVal.jbool true) JArr.nil))) JObj.nil)) = true ∧
      decode (encode (JVal.obj (JObj.cons "a" (JVal.arr (JArr.cons (JVal.num 1)
          (JArr.cons (JVal.jbool true) JArr.nil))) JObj.nil))) =
        JVal.obj (JObj.cons "a" (JVal.arr (JArr.cons (JVal.num 1)
          (JArr.cons (JVal.jbool true) JArr.nil))) JObj.nil) :=
  ⟨by decide, by decide, structured_roundtrip _ (by decide) (by decide)⟩

/-- C4: immediately after any successful `setValue` (write succeeding, and
for the cookie backend usable key, attributes and jar), the binding's
last-observed raw value equals the raw value the backend reports, so an
immediate `checkValue` for the same binding compares equal and performs no
decode and no subscriber notification. -/
theorem setValue_self_check_silent (b : Binding) (env : Env) (v : JVal)
    (b2 : Binding) (env2 : Env) (notifs : List JVal) (w : Nat)
    (hfail : env.failWrite = false)
    (hck : b.storageType = .cookie →
      keyWf b.key ∧ cookieOptsWf b.cookieOptions ∧ jarWf env.jar)
    (hrun : setValue b env v = (b2, env2, notifs, w)) :
    readRaw b2.storageType env2 b2.key = .ok b2.lastValue ∧
      checkValue b2 env2 = (b2, []) := by
  have h := setValue_sync b env v hfail hck
  rw [hrun] at h
  exact h

theorem setValue_self_check_silent_w :
    readRaw StorageType.localStorage ⟨[("k", "x")], [], [], 0, false⟩ "k" =
        Except.ok (some "x") ∧
      checkValue ⟨"k", StorageType.localStorage, ⟨none, none, none, none, none⟩,
          JVal.str "x", some "x"⟩ ⟨[("k", "x")], [], [], 0, false⟩ =
        (⟨"k", StorageType.localStorage, ⟨none, none, none, none, none⟩,
          JVal.str "x", some "x"⟩, []) :=
  setValue_self_check_silent
    ⟨"k", StorageType.localStorage, ⟨none, none, none, none, none⟩, JVal.null, none⟩
    ⟨[], [], [], 0, false⟩ (JVal.str "x") _ _ _ _ rfl
    (fun hc => StorageType.noConfusion hc) rfl

/-- C5: after any sequence of register/release operations on the polling
manager, the background timer is running if and only if the subscriber set
is non-empty, and the number of live intervals is exactly one when
subscribers exist and zero otherwise (never N). -/
theorem poll_timer_iff_subscribers (ops : List PollOp) :
    ((applyOps ops).intervalId.isSome ↔ (applyOps ops).subscribers ≠ []) ∧
      (applyOps ops).activeTimers =
        (if (applyOps ops).subscribers = [] then 0 else 1) :=
  ⟨(pollInv_applyOps ops).1, (pollInv_applyOps ops).2.1⟩

/-- C6: when the backend write throws during `setValue` with a non-null
value, the binding (its last-observed raw value and its caller-visible typed
value) and the environment are unchanged, no notification fires, and the
exception is caught — only a `console.warn` is emitted. -/
theorem setValue_write_failure_silent (b : Binding) (env : Env) (v : JVal)
    (hfail : env.failWrite = true) (hv : v ≠ JVal.null) :
    setValue b env v = (b, env, [], 1) := by
  cases hty : b.storageType <;>
    simp [setValue, setValueBody, hv, hty, hfail]

theorem setValue_write_failure_silent_w :
    setValue ⟨"k", StorageType.localStorage, ⟨none, none, none, none, none⟩,
        JVal.num 3, some "3"⟩ ⟨[("k", "3")], [], [], 0, true⟩ (JVal.num 7) =
      (⟨"k", StorageType.localStorage, ⟨none, none, none, none, none⟩,
        JVal.num 3, some "3"⟩, ⟨[("k", "3")], [], [], 0, true⟩, [], 1) :=
  setValue_write_failure_silent _ _ _ rfl (by decide)

/-- C7: on a tick of a live timer, every registered closure is invoked, in
registration order, whatever closures throw (each exception is swallowed for
that tick only), and the manager's state — in particular the interval — is
untouched, so the timer keeps firing. -/
theorem tick_invokes_all {σ : Type} (ps : PollState) (beh : Nat → σ → Except Unit σ)
    (s : σ) (hlive : ps.intervalId.isSome = true) :
    (managerTick ps beh s).1 = ps ∧ (managerTick ps beh s).2.2 = ps.subscribers := by
  cases hio : ps.intervalId with
  | none => simp [hio] at hlive
  | some t =>
    unfold managerTick
    rw [hio]
    refine ⟨rfl, ?_⟩
    show (runTick (ps.subscribers.map fun id => (id, beh id)) s).2 = ps.subscribers
    rw [runTick_invokes]
    have hcomp : (Prod.fst ∘ fun n : Nat => (n, beh n)) = id := rfl
    rw [List.map_map, hcomp, List.map_id]

theorem tick_invokes_all_w :
    (managerTick ⟨some 0, [1, 2], 1, 1⟩
        (fun i s => if i = 1 then Except.error () else Except.ok (s + 1)) 0).1 =
      ⟨some 0, [1, 2], 1, 1⟩ ∧
      (managerTick ⟨some 0, [1, 2], 1, 1⟩
        (fun i s => if i = 1 then Except.error () else Except.ok (s + 1)) 0).2.2 =
      [1, 2] :=
  tick_invokes_all ⟨some 0, [1, 2], 1, 1⟩
    (fun i s => if i = 1 then Except.error () else Except.ok (s + 1)) 0 rfl

theorem expiresSegs_setCookieString_w :
    keyWf "k" ∧
      expiresSegs (setCookieString "k" "v" ⟨some 7, none, none, none, none⟩ 0) =
        (match (⟨some 7, none, none, none, none⟩ : CookieOpts).expires with
         | some e =>
           if e ≠ 0 then [("expires=" : String).data ++ toUTCChars (0 + e * 86400000)]
           else []
         | none => [("expires=" : String).data ++ toUTCChars (0 + 365 * 86400000)]) :=
  ⟨by decide, expiresSegs_setCookieString "k" "v" ⟨some 7, none, none, none, none⟩ 0
    (by decide) (by decide) (by decide)⟩

/-- C9 (amended): `clear` empties the whole area for the persistent and
session backends; for the cookie backend it is a no-op that leaves all
cookies unchanged — and, contrary to the claim, emits no warning diagnostic
(the comment at line 217 is not a `console.warn`). -/
theorem clear_behavior (env : Env) (hfail : env.failWrite = false) :
    clearOp .localStorage env = ({ env with localMap := [] }, 0) ∧
      clearOp .sessionStorage env = ({ env with sessionMap := [] }, 0) ∧
      clearOp .cookie env = (env, 0) := by
  refine ⟨?_, ?_, ?_⟩ <;> simp [clearOp, hfail]

theorem clear_behavior_cex :
    clearOp .cookie ⟨[("a", "1")], [("b", "2")], [("c", "3")], 0, false⟩ =
      (⟨[("a", "1")], [("b", "2")], [("c", "3")], 0, false⟩, 0) :=
  rfl

theorem clear_behavior_w :
    clearOp .localStorage ⟨[("a", "1")], [("b", "2")], [("c", "3")], 0, false⟩ =
        (⟨[], [("b", "2")], [("c", "3")], 0, false⟩, 0) ∧
      clearOp .sessionStorage ⟨[("a", "1")], [("b", "2")], [("c", "3")], 0, false⟩ =
        (⟨[("a", "1")], [], [("c", "3")], 0, false⟩, 0) ∧
      clearOp .cookie ⟨[("a", "1")], [("b", "2")], [("c", "3")], 0, false⟩ =
        (⟨[("a", "1")], [("b", "2")], [("c", "3")], 0, false⟩, 0) :=
  clear_behavior ⟨[("a", "1")], [("b", "2")], [("c", "3")], 0, false⟩ rfl

/-- C10: under the manager's invariant, subscribing an already-present
callback is a no-op (membership is at-most-once: its count after `subscribe`
is exactly one), and the unsubscribe closure is idempotent — invoking it when
the callback is already removed leaves the subscriber set and the timer state
unchanged. -/
theorem subscribe_once_unsubscribe_idempotent (s : PollState) (h : PollInv s)
    (cb : Nat) :
    (cb ∈ s.subscribers → subscribe cb s = s) ∧
      (subscribe cb s).subscribers.count cb = 1 ∧
      (cb ∉ s.subscribers → unsubscribe cb s = s) :=
  ⟨fun hm => subscribe_mem h hm, subscribe_count h cb,
    fun hm => unsubscribe_absent h hm⟩

theorem subscribe_once_unsubscribe_idempotent_w :
    (subscribe 5 ⟨some 0, [5], 1, 1⟩).subscribers.count 5 = 1 :=
  (subscribe_once_unsubscribe_idempotent ⟨some 0, [5], 1, 1⟩ (by decide) 5).2.1

end Spec2Proof
